import Mathlib

/-!
# Race and event repositories: filter compiler, materializer, sorter

A shallow embedding of `racing/db/races.go`, `sports/db/events.go` and
`sports/db/queries.go` (and the pieces of the Go and protobuf libraries they call),
followed by theorems about it.

Conventions of the embedding:

* a Go `string` is a Lean `String`; a Go slice is a `List` (the nil slice is `[]`);
* `int64` values are `Int` (no arithmetic is performed on them in this code);
* a `time.Time` is the instant it denotes, in nanoseconds since the Unix epoch;
* a `(value, error)` result is an `Except Error value`; a call that may also
  end in a runtime panic returns an `Outcome`;
* the wall clock is explicit: `time.Now()` is a parameter;
* the seed action `r.seed()` is a parameter of `Init`; concurrent calls of `Init` are
  interleavings of the steps that `sync.Once` allows.
-/

namespace Racing

/-! ## Library values -/

/-- The instant denoted by a Go `time.Time`, in nanoseconds since the Unix epoch. -/
abbrev Time := Int

/-- Go `t.Before(u)`: the instant `t` is strictly before `u`. -/
def Time.Before (t u : Time) : Bool := decide (t < u)

/-- Go `t.After(u)`: the instant `t` is strictly after `u`. -/
def Time.After (t u : Time) : Bool := decide (u < t)

/-- The protobuf `timestamp.Timestamp` message. -/
structure Timestamp where
  Seconds : Int
  Nanos : Int
  deriving DecidableEq, Repr

/-- Errors that the repository can hand back to its caller. -/
inductive Error where
  /-- The sentinel `sql.ErrNoRows`. -/
  | ErrNoRows
  /-- A failure reported by `Scan` (column count or type mismatch). -/
  | scan (detail : String)
  /-- The error of `ptypes.TimestampProto`: the seconds are outside the protobuf range. -/
  | timestamp (seconds : Int)
  /-- A failure reported by the SQL engine for the query text or its bindings. -/
  | query (detail : String)
  deriving DecidableEq, Repr

/-- First second representable by a protobuf timestamp: 0001-01-01T00:00:00Z. -/
def minValidSeconds : Int := -62135596800

/-- First second after the protobuf range: 10000-01-01T00:00:00Z. -/
def maxValidSeconds : Int := 253402300800

/-- The message built by `ptypes.TimestampProto` before validation:
`Seconds = t.Unix()`, `Nanos = t.Nanosecond()`. -/
def timestampOf (t : Time) : Timestamp :=
  { Seconds := t / 1000000000, Nanos := t % 1000000000 }

/-- Library function `validateTimestamp` of ptypes. -/
def validateTimestamp (ts : Timestamp) : Except Error Unit :=
  if ts.Seconds < minValidSeconds then .error (Error.timestamp ts.Seconds)
  else if ts.Seconds ≥ maxValidSeconds then .error (Error.timestamp ts.Seconds)
  else if ts.Nanos < 0 ∨ ts.Nanos ≥ 1000000000 then .error (Error.timestamp ts.Seconds)
  else .ok ()

/-- Library function `ptypes.TimestampProto`: convert, then validate. -/
def TimestampProto (t : Time) : Except Error Timestamp :=
  let ts := timestampOf t
  match validateTimestamp ts with
  | .error err => .error err
  | .ok () => .ok ts

/-- Library method `(*Timestamp).AsTime`: `time.Unix(Seconds, Nanos).UTC()`. -/
def Timestamp.AsTime (ts : Timestamp) : Time :=
  ts.Seconds * 1000000000 + ts.Nanos

/-- Library function `strings.Repeat` for a non-negative count. -/
def Repeat (s : String) : Nat → String
  | 0 => ""
  | n + 1 => s ++ Repeat s n

/-- Library function `strings.Join`. -/
def Join : List String → String → String
  | [], _ => ""
  | [a], _ => a
  | a :: b :: rest, sep => a ++ sep ++ Join (b :: rest) sep

/-- Insert `x`, which preceded every element of the sorted `l` in the input, *before* the
first element that is not `less` than it, so that it stays in front of its equals. -/
def stableInsert {α : Type} (less : α → α → Bool) (x : α) : List α → List α
  | [] => [x]
  | y :: l => if less y x then y :: stableInsert less x l else x :: y :: l

/-- Library function `sort.SliceStable`: sorts by `less`, keeping equal elements in their
original order. The result of a stable sort is determined by its contract; it is computed
here by stable insertion. -/
def SliceStable {α : Type} (x : List α) (less : α → α → Bool) : List α :=
  x.foldr (stableInsert less) []

/-! ## Messages of the racing protobuf package -/

/-- Modelled from the spec: the generated package `racing/proto/racing` is not among the
sources. The message `racing.ListRacesRequestFilter` with the three fields the repository
reads: two repeated fields and a boolean. -/
structure ListRacesRequestFilter where
  MeetingIds : List Int
  Visible : List Bool
  OrderByAsc : Bool
  deriving DecidableEq, Repr

/-- Modelled from the spec: the generated package `racing/proto/racing` is not among the
sources. The message `racing.Race` with the seven fields the repository writes.
`AdvertisedStartTime` is a pointer in Go; every race the repository hands out has it set. -/
structure Race where
  Id : Int
  MeetingId : Int
  Name : String
  Number : Int
  Visible : Bool
  AdvertisedStartTime : Timestamp
  Status : String
  deriving DecidableEq, Repr

/-- A positional argument handed to the SQL driver (`interface{}` in Go). -/
inductive SqlArg where
  | int64 (v : Int)
  | bool (b : Bool)
  deriving DecidableEq, Repr

/-! ## Rows, cursors and the store -/

/-- The six columns that `Scan` reads from one row of the `races` table. -/
structure RaceRow where
  Id : Int
  MeetingId : Int
  Name : String
  Number : Int
  Visible : Bool
  AdvertisedStart : Time
  deriving DecidableEq, Repr

/-- A `*sql.Row`: the outcome of its `Scan` (`sql.ErrNoRows` when the query matched nothing). -/
abbrev Row := Except Error RaceRow

/-- A `*sql.Rows` cursor: for each row that `Next` reaches, the outcome of `Scan` on it. -/
abbrev Rows := List (Except Error RaceRow)

/-- A slice of races, `[]*racing.Race`. -/
abbrev RaceSlice := List Race

/-- Columns of `races` that hold an integer (a boolean is stored as 0 or 1). -/
inductive Column where
  | id
  | meeting_id
  | number
  | visible
  deriving DecidableEq, Repr

/-- The SQL identifier of a column. -/
def Column.ident : Column → String
  | .id => "id"
  | .meeting_id => "meeting_id"
  | .number => "number"
  | .visible => "visible"

/-- The columns, in the order in which the reader tries their names. -/
def Column.all : List Column := [.id, .meeting_id, .number, .visible]

/-- The stored integer of a column of a row. -/
def RaceRow.value (r : RaceRow) : Column → Int
  | .id => r.Id
  | .meeting_id => r.MeetingId
  | .number => r.Number
  | .visible => if r.Visible then 1 else 0

/-- The integer the driver binds for an argument (`true` is 1, `false` is 0). -/
def SqlArg.toInt : SqlArg → Int
  | .int64 v => v
  | .bool b => if b then 1 else 0

/-- One predicate of a WHERE clause: `col IN (?,...,?)` with `n` placeholders, or `col = ?`. -/
inductive Predicate where
  | isIn (col : Column) (n : Nat)
  | equals (col : Column)
  deriving DecidableEq, Repr

/-- The column a predicate tests. -/
def Predicate.col : Predicate → Column
  | .isIn col _ => col
  | .equals col => col

/-- The number of positional arguments a predicate consumes. -/
def Predicate.arity : Predicate → Nat
  | .isIn _ n => n
  | .equals _ => 1

/-- Remove the leading text `p` from `cs`, if `cs` starts with it. -/
def dropLeading : List Char → List Char → Option (List Char)
  | [], cs => some cs
  | _ :: _, [] => none
  | p :: ps, c :: cs => if p = c then dropLeading ps cs else none

/-- Read `?,?,...,?)` and return the number of placeholders and the text after the bracket. -/
def parsePlaceholders : List Char → Option (Nat × List Char)
  | c :: d :: rest =>
    if c = '?' then
      if d = ')' then some (1, rest)
      else if d = ',' then
        match parsePlaceholders rest with
        | some (n, tail) => some (n + 1, tail)
        | none => none
      else none
    else none
  | _ => none

/-- Read one predicate on the column `col` at the head of `cs`. -/
def parsePredicateOn (cs : List Char) (col : Column) : Option (Predicate × List Char) :=
  match dropLeading (col.ident.data ++ " IN (".data) cs with
  | some rest =>
    match parsePlaceholders rest with
    | some (n, tail) => some (Predicate.isIn col n, tail)
    | none => none
  | none =>
    match dropLeading (col.ident.data ++ " = ?".data) cs with
    | some tail => some (Predicate.equals col, tail)
    | none => none

/-- Read one predicate at the head of `cs`, on whichever column is named there. -/
def parsePredicate (cs : List Char) : Option (Predicate × List Char) :=
  Column.all.findSome? (parsePredicateOn cs)

/-- Read predicates separated by ` AND ` up to the end of the text. -/
def parseConj : Nat → List Char → Option (List Predicate)
  | 0, _ => none
  | fuel + 1, cs =>
    match parsePredicate cs with
    | none => none
    | some (p, []) => some [p]
    | some (p, c :: tail) =>
      match dropLeading " AND ".data (c :: tail) with
      | none => none
      | some more =>
        match parseConj fuel more with
        | some ps => some (p :: ps)
        | none => none

/-- Read what follows the SELECT statement: nothing, or ` WHERE ` and a conjunction. -/
def parseWhere (cs : List Char) : Option (List Predicate) :=
  match cs with
  | [] => some []
  | _ :: _ =>
    match dropLeading " WHERE ".data cs with
    | some rest => parseConj rest.length rest
    | none => none

/-- Standard SQL reading of a conjunction of predicates whose placeholders are bound, left
to right, to `args`: every predicate holds, and a predicate holds when the column's value
equals one of the arguments bound to its placeholders. -/
def holds : List Predicate → List SqlArg → RaceRow → Bool
  | [], _, _ => true
  | p :: ps, args, r =>
    (args.take p.arity).any (fun a => a.toInt == r.value p.col) && holds ps (args.drop p.arity) r

/-- The number of placeholders of a conjunction. -/
def placeholderCount (ps : List Predicate) : Nat :=
  (ps.map Predicate.arity).sum

/-- Key of the list query in the query table. -/
def racesList : String := "list"

/-- Modelled from the spec: `racing/db/queries.go` is not among the sources. The table of
queries of the race repository, after its sibling `getEventQueries` and the storage schema
`races(id, meeting_id, name, number, visible, advertised_start_time)`. A key that is not in
a Go map reads as the empty string. -/
def getRaceQueries (key : String) : String :=
  if key = racesList then
    "\n\t\tSELECT \n\t\t\tid, \n\t\t\tmeeting_id, \n\t\t\tname, \n\t\t\tnumber, \n\t\t\tvisible, \n\t\t\tadvertised_start_time \n\t\tFROM races\n\t"
  else ""

/-- The store behind `*sql.DB`: the rows of the `races` table in store order. -/
structure DB where
  races : List RaceRow
  deriving Repr

/-- The SQL engine, as far as the repository needs it (`db.Query`): the statement is the
SELECT of `getRaceQueries` followed by a WHERE clause; placeholders and arguments are
matched positionally and must agree in number; the cursor yields the rows of the table
that satisfy the clause, in store order, each scanning into its six columns. -/
def DB.Query (db : DB) (query : String) (args : List SqlArg) : Except Error Rows :=
  match dropLeading (getRaceQueries racesList).data query.data with
  | none => .error (Error.query "unrecognised statement")
  | some rest =>
    match parseWhere rest with
    | none => .error (Error.query "malformed WHERE clause")
    | some ps =>
      if placeholderCount ps = args.length then
        .ok ((db.races.filter (holds ps args)).map Except.ok)
      else .error (Error.query "wrong number of bindings")

/-- Library method `db.QueryRow`: the first row of the cursor; its `Scan` reports a query
failure, or `sql.ErrNoRows` when the cursor is empty. -/
def DB.QueryRow (db : DB) (query : String) (args : List SqlArg) : Row :=
  match db.Query query args with
  | .error err => .error err
  | .ok [] => .error Error.ErrNoRows
  | .ok (row :: _) => row

/-- Library type `sync.Once`. -/
structure Once where
  done : Bool
  deriving DecidableEq, Repr

/-- The repository object. -/
structure racesRepo where
  db : DB
  init : Once

/-- The result of a call that returns `(value, error)` or ends in a runtime panic. -/
inductive Outcome (α : Type) where
  /-- Returned `(v, nil)`. -/
  | ok (v : α)
  /-- Returned `(nil, err)`. -/
  | error (err : Error)
  /-- The call did not return: nil pointer dereference. -/
  | panic
  deriving DecidableEq, Repr

/-! ## The filter compiler -/

/-- Method `racesRepo.applyFilter`. -/
def racesRepo.applyFilter (query : String) (filter : Option ListRacesRequestFilter) :
    String × List SqlArg :=
  let clauses : List String := []
  let args : List SqlArg := []
  match filter with
  | none => (query, args)
  | some filter =>
    let (clauses, args) :=
      if filter.MeetingIds.length > 0 then
        (clauses ++ ["meeting_id IN (" ++ Repeat "?," (filter.MeetingIds.length - 1) ++ "?)"],
          filter.MeetingIds.foldl (fun args meetingID => args ++ [SqlArg.int64 meetingID]) args)
      else (clauses, args)
    let (clauses, args) :=
      if filter.Visible.length > 0 then
        (clauses ++ ["visible IN (" ++ Repeat "?," (filter.Visible.length - 1) ++ "?)"],
          filter.Visible.foldl (fun args visible => args ++ [SqlArg.bool visible]) args)
      else (clauses, args)
    let query :=
      if clauses.length != 0 then query ++ (" WHERE " ++ Join clauses " AND ") else query
    (query, args)

/-! ## The materializers and the sorter -/

/-- Method `racesRepo.scanRace`, with the instant `now` that `time.Now()` returns. -/
def racesRepo.scanRace (row : Row) (now : Time) : Except Error (Option Race) :=
  match row with
  | .error err => if err = Error.ErrNoRows then .ok none else .error err
  | .ok scanned =>
    match TimestampProto scanned.AdvertisedStart with
    | .error _ => .ok none
    | .ok ts =>
      .ok (some
        { Id := scanned.Id
          MeetingId := scanned.MeetingId
          Name := scanned.Name
          Number := scanned.Number
          Visible := scanned.Visible
          AdvertisedStartTime := ts
          Status := if Time.Before scanned.AdvertisedStart now then "CLOSED" else "OPEN" })

/-- The comparison closure that `scanRaces` hands to `sort.SliceStable`. -/
def racesRepo.less (orderByAsc : Bool) (a b : Race) : Bool :=
  if orderByAsc == true then
    Time.Before a.AdvertisedStartTime.AsTime b.AdvertisedStartTime.AsTime
  else
    Time.After a.AdvertisedStartTime.AsTime b.AdvertisedStartTime.AsTime

/-- The body of `racesRepo.scanRaces` from the loop on: `rows` is what the cursor still
holds, `races` the slice built so far, and `clock i` the instant that the call of
`time.Now()` for the row at position `i` returns. -/
def racesRepo.scanRacesFrom (clock : Nat → Time) (orderByAsc : Bool) :
    Rows → Nat → RaceSlice → Except Error RaceSlice
  | [], _, races => .ok (SliceStable races (racesRepo.less orderByAsc))
  | .error err :: _, _, _ => if err = Error.ErrNoRows then .ok [] else .error err
  | .ok scanned :: rest, i, races =>
    match TimestampProto scanned.AdvertisedStart with
    | .error err => .error err
    | .ok ts =>
      racesRepo.scanRacesFrom clock orderByAsc rest (i + 1)
        (races ++
          [{ Id := scanned.Id
             MeetingId := scanned.MeetingId
             Name := scanned.Name
             Number := scanned.Number
             Visible := scanned.Visible
             AdvertisedStartTime := ts
             Status := if Time.Before scanned.AdvertisedStart (clock i) then "CLOSED"
                       else "OPEN" }])

/-- Method `racesRepo.scanRaces`. -/
def racesRepo.scanRaces (rows : Rows) (clock : Nat → Time) (orderByAsc : Bool) :
    Except Error RaceSlice :=
  racesRepo.scanRacesFrom clock orderByAsc rows 0 []

/-! ## The entry points -/

/-- Method `racesRepo.List`. The argument `filter.OrderByAsc` of the final call is a field
read through the pointer `filter`, evaluated after the query has run. -/
def racesRepo.List (r : racesRepo) (filter : Option ListRacesRequestFilter)
    (clock : Nat → Time) : Outcome RaceSlice :=
  let query := getRaceQueries racesList
  let (query, args) := racesRepo.applyFilter query filter
  match r.db.Query query args with
  | .error err => .error err
  | .ok rows =>
    match filter with
    | none => .panic
    | some filter =>
      match racesRepo.scanRaces rows clock filter.OrderByAsc with
      | .error err => .error err
      | .ok races => .ok races

/-- Method `racesRepo.Get`. -/
def racesRepo.Get (r : racesRepo) (id : Int) (now : Time) : Except Error (Option Race) :=
  let row := r.db.QueryRow (getRaceQueries racesList ++ " WHERE id = ?") [SqlArg.int64 id]
  racesRepo.scanRace row now

/-! ## Vocabulary of the statements -/

/-- The timestamp of `t` passes `ptypes.TimestampProto`. -/
def Convertible (t : Time) : Prop :=
  minValidSeconds ≤ t / 1000000000 ∧ t / 1000000000 < maxValidSeconds

instance (t : Time) : Decidable (Convertible t) := by
  unfold Convertible; infer_instance

/-- The stored columns that a returned race carries. -/
def Race.row (race : Race) : RaceRow :=
  { Id := race.Id
    MeetingId := race.MeetingId
    Name := race.Name
    Number := race.Number
    Visible := race.Visible
    AdvertisedStart := race.AdvertisedStartTime.AsTime }

/-- The start instant of a returned race. -/
def Race.start (race : Race) : Time := race.AdvertisedStartTime.AsTime

/-- The membership reading of a filter: each non-empty field restricts its column to the
listed values. -/
def Matches (f : ListRacesRequestFilter) (r : RaceRow) : Bool :=
  (f.MeetingIds.isEmpty || decide (r.MeetingId ∈ f.MeetingIds)) &&
  (f.Visible.isEmpty || decide (r.Visible ∈ f.Visible))

/-- The text `?,?,...,?` of `n` placeholders separated by commas. -/
def placeholders (n : Nat) : String :=
  ",".intercalate (List.replicate n "?")

/-- The number of `?` characters of a text. -/
def countPlaceholders (s : String) : Nat :=
  s.data.count '?'

/-- The race that the loop body of `scanRaces` builds from a scanned row whose timestamp
converts, when `time.Now()` returns `now`. -/
def raceOf (scanned : RaceRow) (now : Time) : Race :=
  { Id := scanned.Id
    MeetingId := scanned.MeetingId
    Name := scanned.Name
    Number := scanned.Number
    Visible := scanned.Visible
    AdvertisedStartTime := timestampOf scanned.AdvertisedStart
    Status := if Time.Before scanned.AdvertisedStart now then "CLOSED" else "OPEN" }

/-- The races built from scanned rows in cursor order, the first one at position `i`. -/
def racesOf (clock : Nat → Time) : Nat → List RaceRow → List Race
  | _, [] => []
  | i, scanned :: rest => raceOf scanned (clock i) :: racesOf clock (i + 1) rest

/-- The rows of a cursor whose `Scan` succeeds, in cursor order. -/
def scannedRows (rows : Rows) : List RaceRow :=
  rows.filterMap (fun row => match row with
    | .ok scanned => some scanned
    | .error _ => none)

/-- Every row of the cursor scans and its start time converts. -/
def AllMaterialize (rows : Rows) : Prop :=
  ∀ row ∈ rows, ∃ scanned, row = .ok scanned ∧ Convertible scanned.AdvertisedStart

/-- A cursor as `(*sql.Rows).Scan` delivers it: on a row that `Next` has reached, `Scan`
returns a destination-count error or a wrapped conversion error, never the bare sentinel
`sql.ErrNoRows`, which only `(*sql.Row).Scan` returns. -/
def DeliveredByRowsScan (rows : Rows) : Prop :=
  ∀ row ∈ rows, row ≠ .error Error.ErrNoRows

/-! ## Initialisation -/

/-- Library method `(*sync.Once).Do`, for calls that follow one another: `f` runs on the
state it closes over unless an earlier call of `Do` has run its function. -/
def Once.Do {σ : Type} (o : Once) (f : σ → σ) (s : σ) : Once × σ :=
  if o.done then (o, s) else ({ done := true }, f s)

/-- What the calls of a sequence of `Init` calls returned, in order (`none` is nil). -/
abbrev InitErrors := List (Option Error)

/-- The positional arguments of a query. -/
abbrev SqlArgs := List SqlArg

/-- Function `NewRacesRepo`: the guard `init` starts in its zero value. -/
def NewRacesRepo (db : DB) : racesRepo :=
  { db := db, init := { done := false } }

/-- Method `racesRepo.Init`. The method `r.seed()` is not among the sources and is the
parameter `seed`: it gives the store after seeding and the error it returns, if any. The
closure handed to `Do` assigns the local `err` of this call. -/
def racesRepo.Init (r : racesRepo) (seed : DB → DB × Option Error) :
    racesRepo × Option Error :=
  let err : Option Error := none
  let (once, db, err) := r.init.Do (fun (state : DB × Option Error) => seed state.1) (r.db, err)
  ({ db := db, init := once }, err)

/-- Calls of `Init` one after the other, `n` of them: the repository afterwards and what
each call returned, in order. -/
def racesRepo.InitTimes (seed : DB → DB × Option Error) :
    Nat → racesRepo → racesRepo × InitErrors
  | 0, r => (r, [])
  | n + 1, r =>
    let (r1, err) := r.Init seed
    let (r2, errs) := racesRepo.InitTimes seed n r1
    (r2, err :: errs)

/-- A seed action that inserts one row and returns `err`. -/
def insertingSeed (row : RaceRow) (err : Option Error) (db : DB) : DB × Option Error :=
  ({ races := db.races ++ [row] }, err)

/-! ## The event repository -/

/-- Modelled from the spec: the generated package `sports/proto/sports` is not among the
sources. The message `sports.Event` with the three fields the repository writes. -/
structure Event where
  Id : Int
  Name : String
  AdvertisedStartTime : Timestamp
  deriving DecidableEq, Repr

/-- The three columns that `Scan` reads from one row of the `events` table. -/
structure EventRow where
  Id : Int
  Name : String
  AdvertisedStart : Time
  deriving DecidableEq, Repr

/-- A `*sql.Rows` cursor over events: for each row, the outcome of `Scan` on it. -/
abbrev EventRows := List (Except Error EventRow)

/-- A slice of events, `[]*sports.Event`. -/
abbrev EventSlice := List Event

/-- Constant `eventsList` of `sports/db/queries.go`. -/
def eventsList : String := "list"

/-- Function `getEventQueries` of `sports/db/queries.go`. A key that is not in a Go map
reads as the empty string. -/
def getEventQueries (key : String) : String :=
  if key = eventsList then
    "\n\t\t\tSELECT \n\t\t\t\tid,  \n\t\t\t\tname, \n\t\t\t\tadvertised_start_time \n\t\t\tFROM events\n\t\t"
  else ""

/-- The store behind the `*sql.DB` of the event repository: the rows of `events` in store
order. -/
structure EventsDB where
  events : List EventRow
  deriving Repr

/-- The SQL engine, as far as the event repository needs it: the one statement it knows is
the SELECT of `getEventQueries`, which takes no arguments and yields every row of the table
in store order, each scanning into its three columns. -/
def EventsDB.Query (db : EventsDB) (query : String) (args : List SqlArg) :
    Except Error EventRows :=
  if query = getEventQueries eventsList then
    if args.length = 0 then .ok (db.events.map Except.ok)
    else .error (Error.query "wrong number of bindings")
  else .error (Error.query "unrecognised statement")

/-- The event repository object. -/
structure eventsRepo where
  db : EventsDB
  init : Once

/-- Function `NewEventsRepo`. -/
def NewEventsRepo (db : EventsDB) : eventsRepo :=
  { db := db, init := { done := false } }

/-- Method `eventsRepo.Init`, with the absent `r.seed()` as the parameter `seed`. -/
def eventsRepo.Init (r : eventsRepo) (seed : EventsDB → EventsDB × Option Error) :
    eventsRepo × Option Error :=
  let err : Option Error := none
  let (once, db, err) :=
    r.init.Do (fun (state : EventsDB × Option Error) => seed state.1) (r.db, err)
  ({ db := db, init := once }, err)

/-- Calls of `eventsRepo.Init` one after the other, `n` of them. -/
def eventsRepo.InitTimes (seed : EventsDB → EventsDB × Option Error) :
    Nat → eventsRepo → eventsRepo × InitErrors
  | 0, r => (r, [])
  | n + 1, r =>
    let (r1, err) := r.Init seed
    let (r2, errs) := eventsRepo.InitTimes seed n r1
    (r2, err :: errs)

/-- The body of `eventsRepo.scanEvents` from the loop on: `rows` is what the cursor still
holds and `events` the slice built so far. -/
def eventsRepo.scanEventsFrom : EventRows → EventSlice → Except Error EventSlice
  | [], events => .ok events
  | .error err :: _, _ => if err = Error.ErrNoRows then .ok [] else .error err
  | .ok scanned :: rest, events =>
    match TimestampProto scanned.AdvertisedStart with
    | .error err => .error err
    | .ok ts =>
      eventsRepo.scanEventsFrom rest
        (events ++ [{ Id := scanned.Id, Name := scanned.Name, AdvertisedStartTime := ts }])

/-- Method `eventsRepo.scanEvents`. -/
def eventsRepo.scanEvents (rows : EventRows) : Except Error EventSlice :=
  eventsRepo.scanEventsFrom rows []

/-- Method `eventsRepo.List`. -/
def eventsRepo.List (r : eventsRepo) : Except Error EventSlice :=
  let args : SqlArgs := []
  let query := getEventQueries eventsList
  match r.db.Query query args with
  | .error err => .error err
  | .ok rows => eventsRepo.scanEvents rows

/-- The stored columns that a returned event carries. -/
def Event.row (event : Event) : EventRow :=
  { Id := event.Id, Name := event.Name, AdvertisedStart := event.AdvertisedStartTime.AsTime }

/-! ## Concurrent calls of `Init` -/

/-- Where one call of `Init` stands. -/
inductive Call where
  /-- Entered `Init`: the local `err` is nil and `r.init.Do` has not started. -/
  | start
  /-- In `Do`: has read `done` as unset and waits for the mutex of the guard. -/
  | waiting
  /-- Holds the mutex, has read `done` as unset again, and runs the closure
  `err = r.seed()`. -/
  | seeding
  /-- Returned `err`. -/
  | returned (err : Option Error)
  deriving DecidableEq, Repr

/-- The repository as concurrent calls of `Init` share it: the store, the flag and the
mutex of the guard, the calls in flight, and the number of executions of the seed action
so far. -/
structure Shared where
  db : DB
  done : Bool
  locked : Bool
  seedRuns : Nat
  calls : List Call
  deriving Repr

/-- The next step of call `i`, if it can take one, following `sync.Once`: `Do` returns at
once when it reads `done` as set; otherwise it takes the mutex and, holding it, returns if
`done` has been set meanwhile, and else runs the closure, sets `done` and releases the
mutex. A call that waits for a held mutex cannot step; a call that has returned has no
step. -/
def Shared.step (seed : DB → DB × Option Error) (w : Shared) (i : Nat) : Option Shared :=
  match w.calls[i]? with
  | none => none
  | some Call.start =>
    if w.done then some { w with calls := w.calls.set i (Call.returned none) }
    else some { w with calls := w.calls.set i Call.waiting }
  | some Call.waiting =>
    if w.locked then none
    else if w.done then some { w with calls := w.calls.set i (Call.returned none) }
    else some { w with locked := true, calls := w.calls.set i Call.seeding }
  | some Call.seeding =>
    some
      { db := (seed w.db).1
        done := true
        locked := false
        seedRuns := w.seedRuns + 1
        calls := w.calls.set i (Call.returned (seed w.db).2) }
  | some (Call.returned _) => none

/-- An interleaving: the calls step in the order `schedule` names them. The result is
`none` when a named call cannot step. -/
def Shared.run (seed : DB → DB × Option Error) : Shared → List Nat → Option Shared
  | w, [] => some w
  | w, i :: rest =>
    match w.step seed i with
    | none => none
    | some next => Shared.run seed next rest

/-- The moment `n` calls of `Init` have been made on a fresh repository over `db`. -/
def Shared.begin (db : DB) (n : Nat) : Shared :=
  { db := db, done := false, locked := false, seedRuns := 0,
    calls := List.replicate n Call.start }

/-- The call has returned. -/
def Call.isReturned : Call → Bool
  | .returned _ => true
  | _ => false

/-- Every call has returned. -/
def Shared.finished (w : Shared) : Bool :=
  w.calls.all Call.isReturned

/-- An upper bound on the steps a call still takes. -/
def Call.remaining : Call → Nat
  | .start => 3
  | .waiting => 2
  | .seeding => 1
  | .returned _ => 0

/-- An upper bound on the steps all calls still take. -/
def Shared.remaining (w : Shared) : Nat :=
  (w.calls.map Call.remaining).sum

/-- What holds of the shared state at every moment of every interleaving that starts with
`n` calls on a fresh repository over `db0`. Before the seed has run: nothing has changed,
no call has returned, and a call is seeding exactly when the mutex is held, and then only
one. After: the mutex is free, the seed has run once on `db0`, one call has returned the
seed's error and every other call has returned nil or has still to return. -/
def Shared.Invariant (seed : DB → DB × Option Error) (db0 : DB) (n : Nat) (w : Shared) :
    Prop :=
  w.calls.length = n ∧
    ((w.done = false ∧ w.seedRuns = 0 ∧ w.db = db0 ∧
        (∀ (k : Nat) (c : Call), w.calls[k]? = some c →
          c = Call.start ∨ c = Call.waiting ∨ c = Call.seeding) ∧
        (w.locked = false → ∀ k : Nat, w.calls[k]? ≠ some Call.seeding) ∧
        (w.locked = true → ∃ j : Nat, w.calls[j]? = some Call.seeding ∧
          ∀ k : Nat, k ≠ j → w.calls[k]? ≠ some Call.seeding)) ∨
      (w.done = true ∧ w.locked = false ∧ w.seedRuns = 1 ∧ w.db = (seed db0).1 ∧
        ∃ j : Nat, w.calls[j]? = some (Call.returned (seed db0).2) ∧
          ∀ k : Nat, k ≠ j → ∀ c, w.calls[k]? = some c →
            c = Call.start ∨ c = Call.waiting ∨ c = Call.returned none))

/-! ## Example data -/

/-- The evaluation instant `T` of the examples: 2023-11-14T22:13:20Z. -/
def exampleNow : Time := 1700000000000000000

/-- One hour, in nanoseconds. -/
def hour : Int := 3600000000000

/-- The three seeded rows of the example: starts at `T - 1h`, `T + 1h`, `T - 2h`. -/
def exampleRows : List RaceRow :=
  [ { Id := 1, MeetingId := 3, Name := "Race 1", Number := 1, Visible := true,
      AdvertisedStart := exampleNow - hour },
    { Id := 2, MeetingId := 3, Name := "Race 2", Number := 2, Visible := false,
      AdvertisedStart := exampleNow + hour },
    { Id := 3, MeetingId := 5, Name := "Race 3", Number := 3, Visible := true,
      AdvertisedStart := exampleNow - 2 * hour } ]

/-- A repository over the three seeded rows. -/
def exampleRepo : racesRepo :=
  { db := { races := exampleRows }, init := { done := true } }

/-- The filter of the example: meeting 3, visible, ascending. -/
def exampleFilter : ListRacesRequestFilter :=
  { MeetingIds := [3], Visible := [true], OrderByAsc := true }

/-- A filter with two meeting ids and one visible value. -/
def twoMeetingsFilter : ListRacesRequestFilter :=
  { MeetingIds := [3, 4], Visible := [true], OrderByAsc := false }

/-- A repository whose only row starts at 10000-01-01T00:00:00Z, the first instant after
the range of protobuf timestamps. -/
def farFutureRepo : racesRepo :=
  { db := { races :=
      [ { Id := 1, MeetingId := 3, Name := "Race 1", Number := 1, Visible := true,
          AdvertisedStart := 253402300800000000000 } ] }
    init := { done := true } }

/-- Four rows with two pairs of equal start times, in cursor order 1, 2, 3, 4. -/
def tiedRows : List RaceRow :=
  [ { Id := 1, MeetingId := 3, Name := "Race 1", Number := 1, Visible := true,
      AdvertisedStart := exampleNow + hour },
    { Id := 2, MeetingId := 3, Name := "Race 2", Number := 2, Visible := true,
      AdvertisedStart := exampleNow - hour },
    { Id := 3, MeetingId := 5, Name := "Race 3", Number := 3, Visible := false,
      AdvertisedStart := exampleNow + hour },
    { Id := 4, MeetingId := 5, Name := "Race 4", Number := 4, Visible := true,
      AdvertisedStart := exampleNow - hour } ]

/-- The cursor over `tiedRows`, every row scanning. -/
def tiedCursor : Rows := tiedRows.map Except.ok

/-- A row that starts exactly at the evaluation instant. -/
def startingNow : RaceRow :=
  { Id := 7, MeetingId := 3, Name := "Race 7", Number := 7, Visible := true,
    AdvertisedStart := exampleNow }

/-- An error of the seed action. -/
def seedFailure : Error := Error.query "seeding failed"

/-- A seed action that inserts the row starting at `T` and fails. -/
def failingSeed : DB → DB × Option Error :=
  insertingSeed startingNow (some seedFailure)

/-- A seed action on the event store that changes nothing and fails. -/
def failingEventSeed (db : EventsDB) : EventsDB × Option Error :=
  (db, some seedFailure)

/-- Three event rows in store order, not in the order of their start times. -/
def exampleEvents : List EventRow :=
  [ { Id := 1, Name := "Event 1", AdvertisedStart := exampleNow + hour },
    { Id := 2, Name := "Event 2", AdvertisedStart := exampleNow - hour },
    { Id := 3, Name := "Event 3", AdvertisedStart := exampleNow } ]

/-! ## Theorems -/

/-! ### The filter compiler -/

theorem foldl_append_singleton {α β : Type} (g : α → β) (l : List α) (init : List β) :
    l.foldl (fun acc x => acc ++ [g x]) init = init ++ l.map g := by
  induction l generalizing init with
  | nil => simp
  | cons a l ih => simp [ih]

/-- The text that the compiler appends for a filter. -/
theorem applyFilter_some (q : String) (f : ListRacesRequestFilter) :
    racesRepo.applyFilter q (some f) =
      (if f.MeetingIds.length > 0 then
         if f.Visible.length > 0 then
           q ++ (" WHERE " ++ ("meeting_id IN (" ++ Repeat "?," (f.MeetingIds.length - 1) ++ "?)"
             ++ " AND " ++ ("visible IN (" ++ Repeat "?," (f.Visible.length - 1) ++ "?)")))
         else q ++ (" WHERE " ++ ("meeting_id IN (" ++ Repeat "?," (f.MeetingIds.length - 1) ++ "?)"))
       else
         if f.Visible.length > 0 then
           q ++ (" WHERE " ++ ("visible IN (" ++ Repeat "?," (f.Visible.length - 1) ++ "?)"))
         else q,
       f.MeetingIds.map SqlArg.int64 ++ f.Visible.map SqlArg.bool) := by
  unfold racesRepo.applyFilter
  by_cases hm : f.MeetingIds.length > 0 <;> by_cases hv : f.Visible.length > 0
  · simp [hm, hv, foldl_append_singleton, Join]
  · have : f.Visible = [] := by
      cases h : f.Visible with
      | nil => rfl
      | cons a l => simp [h] at hv
    simp [hm, this, foldl_append_singleton, Join]
  · have : f.MeetingIds = [] := by
      cases h : f.MeetingIds with
      | nil => rfl
      | cons a l => simp [h] at hm
    simp [hv, this, foldl_append_singleton, Join]
  · have h1 : f.MeetingIds = [] := by
      cases h : f.MeetingIds with
      | nil => rfl
      | cons a l => simp [h] at hm
    have h2 : f.Visible = [] := by
      cases h : f.Visible with
      | nil => rfl
      | cons a l => simp [h] at hv
    simp [h1, h2]

theorem intercalate_go_data (acc s : String) (l : List String) :
    (String.intercalate.go acc s l).data = acc.data ++ (l.map (fun a => s.data ++ a.data)).flatten := by
  induction l generalizing acc with
  | nil => simp [String.intercalate.go]
  | cons a l ih => simp [String.intercalate.go, ih, List.append_assoc]

theorem placeholders_succ_data (n : Nat) :
    (placeholders (n + 1)).data = '?' :: (List.replicate n [',', '?']).flatten := by
  simp [placeholders, List.replicate_succ, String.intercalate, intercalate_go_data]

theorem Repeat_data (n : Nat) :
    (Repeat "?," n).data = (List.replicate n ['?', ',']).flatten := by
  induction n with
  | zero => rfl
  | succ n ih => simp [Repeat, ih, List.replicate_succ]

theorem swap_join (n : Nat) :
    (List.replicate n ['?', ',']).flatten ++ ['?'] = '?' :: (List.replicate n [',', '?']).flatten := by
  induction n with
  | zero => rfl
  | succ n ih =>
    simp only [List.replicate_succ, List.flatten_cons, List.append_assoc, ih]
    rfl

theorem Repeat_eq_placeholders (n : Nat) : Repeat "?," n ++ "?" = placeholders (n + 1) := by
  apply String.ext
  rw [String.data_append, Repeat_data, placeholders_succ_data]
  exact swap_join n

theorem count_question_flatten (n : Nat) :
    List.count '?' (List.replicate n [',', '?']).flatten = n := by
  induction n with
  | zero => rfl
  | succ n ih => simp [List.replicate_succ, List.count_cons, ih]

theorem count_comma_flatten (n : Nat) :
    List.count ',' (List.replicate n [',', '?']).flatten = n := by
  induction n with
  | zero => rfl
  | succ n ih => simp [List.replicate_succ, List.count_cons, ih]

theorem length_flatten_pairs (n : Nat) :
    (List.replicate n [',', '?']).flatten.length = 2 * n := by
  induction n with
  | zero => rfl
  | succ n ih => simp [List.replicate_succ, ih]; omega

theorem count_placeholders (n : Nat) : countPlaceholders (placeholders n) = n := by
  cases n with
  | zero => rfl
  | succ n =>
    unfold countPlaceholders
    rw [placeholders_succ_data]
    simp [List.count_cons, count_question_flatten]

theorem count_commas (n : Nat) : (placeholders n).data.count ',' = n - 1 := by
  cases n with
  | zero => rfl
  | succ n =>
    rw [placeholders_succ_data]
    simp [List.count_cons, count_comma_flatten]

theorem length_placeholders (n : Nat) : (placeholders n).data.length = 2 * n - 1 := by
  cases n with
  | zero => rfl
  | succ n =>
    rw [placeholders_succ_data]
    simp [length_flatten_pairs]; omega

theorem mem_placeholders {c : Char} {n : Nat} (h : c ∈ (placeholders n).data) :
    c = '?' ∨ c = ',' := by
  cases n with
  | zero => simp [placeholders, String.intercalate] at h
  | succ n =>
    rw [placeholders_succ_data] at h
    simp only [List.mem_cons, List.mem_flatten, List.mem_replicate] at h
    rcases h with h | ⟨l, ⟨-, rfl⟩, h⟩
    · exact Or.inl h
    · simp at h; tauto

theorem inClause_eq (col : String) (k : Nat) :
    col ++ Repeat "?," k ++ "?)" = col ++ placeholders (k + 1) ++ ")" := by
  rw [← Repeat_eq_placeholders]
  apply String.ext
  simp [String.data_append]

/-- C3: for every base query and every non-nil filter, the argument list returned by
`applyFilter` is the meeting ids in the order given, followed by the visible values in the
order given; its length is the sum of the two lengths. -/
theorem applyFilter_args_in_caller_order (q : String) (f : ListRacesRequestFilter) :
    (racesRepo.applyFilter q (some f)).2
        = f.MeetingIds.map SqlArg.int64 ++ f.Visible.map SqlArg.bool ∧
      (racesRepo.applyFilter q (some f)).2.length = f.MeetingIds.length + f.Visible.length := by
  rw [applyFilter_some]
  simp

/-- C4: for a filter with at least one meeting id and at least one visible value,
`applyFilter` returns the base query followed by
` WHERE meeting_id IN (?,...,?) AND visible IN (?,...,?)`, the meeting clause first, where
each bracket holds the comma-separated placeholder text of its field: `n` question marks,
`n - 1` commas and nothing else. -/
theorem applyFilter_two_clauses (q : String) (f : ListRacesRequestFilter)
    (hm : 1 ≤ f.MeetingIds.length) (hv : 1 ≤ f.Visible.length) :
    (racesRepo.applyFilter q (some f)).1
        = q ++ " WHERE meeting_id IN (" ++ placeholders f.MeetingIds.length
            ++ ") AND visible IN (" ++ placeholders f.Visible.length ++ ")" ∧
      (∀ n : Nat, countPlaceholders (placeholders n) = n ∧
        (placeholders n).data.count ',' = n - 1 ∧ (placeholders n).data.length = 2 * n - 1) := by
  refine ⟨?_, fun n => ⟨count_placeholders n, count_commas n, length_placeholders n⟩⟩
  rw [applyFilter_some]
  have hm' : f.MeetingIds.length > 0 := hm
  have hv' : f.Visible.length > 0 := hv
  simp only [hm', hv', if_true]
  obtain ⟨m, hm1⟩ : ∃ m, f.MeetingIds.length = m + 1 := ⟨f.MeetingIds.length - 1, by omega⟩
  obtain ⟨v, hv1⟩ : ∃ v, f.Visible.length = v + 1 := ⟨f.Visible.length - 1, by omega⟩
  simp only [hm1, hv1, Nat.add_sub_cancel, inClause_eq]
  apply String.ext
  simp [String.data_append]

/-- C5: for every base query and every filter, nil or not, the number of `?` characters
of the returned query is the number in the base query plus the length of the returned
argument list. -/
theorem applyFilter_placeholders_match_args (q : String)
    (filter : Option ListRacesRequestFilter) :
    countPlaceholders (racesRepo.applyFilter q filter).1
        = countPlaceholders q + (racesRepo.applyFilter q filter).2.length := by
  cases filter with
  | none => simp [racesRepo.applyFilter]
  | some f =>
    rw [applyFilter_some]
    rcases Nat.eq_zero_or_pos f.MeetingIds.length with hm | hm <;>
      rcases Nat.eq_zero_or_pos f.Visible.length with hv | hv
    · simp [hm, hv]
    · obtain ⟨v, hv1⟩ : ∃ v, f.Visible.length = v + 1 := ⟨f.Visible.length - 1, by omega⟩
      simp only [hm, hv1, Nat.add_sub_cancel, inClause_eq]
      have h := count_placeholders (v + 1)
      unfold countPlaceholders at h ⊢
      simp [String.data_append, List.count_append, h, hm, hv1]
    · obtain ⟨m, hm1⟩ : ∃ m, f.MeetingIds.length = m + 1 := ⟨f.MeetingIds.length - 1, by omega⟩
      simp only [hv, hm1, Nat.add_sub_cancel, inClause_eq]
      have h := count_placeholders (m + 1)
      unfold countPlaceholders at h ⊢
      simp [String.data_append, List.count_append, h, hv, hm1]
    · obtain ⟨m, hm1⟩ : ∃ m, f.MeetingIds.length = m + 1 := ⟨f.MeetingIds.length - 1, by omega⟩
      obtain ⟨v, hv1⟩ : ∃ v, f.Visible.length = v + 1 := ⟨f.Visible.length - 1, by omega⟩
      simp only [hm1, hv1, Nat.add_sub_cancel, inClause_eq]
      have h := count_placeholders (m + 1)
      have h2 := count_placeholders (v + 1)
      unfold countPlaceholders at h h2 ⊢
      simp [String.data_append, List.count_append, h, h2, hm1, hv1]

/-- C6: for every base query, `applyFilter` with a nil filter returns the query unchanged
and no arguments. -/
theorem applyFilter_nil_filter (q : String) :
    racesRepo.applyFilter q none = (q, []) := rfl

/-- C7: a zero-length filter field contributes no clause. With both fields empty the
query is returned unchanged with no arguments; with only meeting ids the appended text is
` WHERE ` and the single `meeting_id IN (...)` clause; with only visible values it is
` WHERE ` and the single `visible IN (...)` clause. Neither clause contains the letter `A`
of ` AND `, the meeting clause has no `v` (so no `visible`) and the visible clause no `m`
(so no `meeting_id`). -/
theorem applyFilter_empty_field_no_clause (q : String) (orderByAsc : Bool)
    (m : Int) (ms : List Int) (v : Bool) (vs : List Bool) :
    racesRepo.applyFilter q (some { MeetingIds := [], Visible := [], OrderByAsc := orderByAsc })
        = (q, []) ∧
      racesRepo.applyFilter q
          (some { MeetingIds := m :: ms, Visible := [], OrderByAsc := orderByAsc })
        = (q ++ " WHERE " ++ ("meeting_id IN (" ++ placeholders (ms.length + 1) ++ ")"),
            (m :: ms).map SqlArg.int64) ∧
      racesRepo.applyFilter q
          (some { MeetingIds := [], Visible := v :: vs, OrderByAsc := orderByAsc })
        = (q ++ " WHERE " ++ ("visible IN (" ++ placeholders (vs.length + 1) ++ ")"),
            (v :: vs).map SqlArg.bool) ∧
      (∀ n : Nat, ∀ c ∈ ("meeting_id IN (" ++ placeholders n ++ ")").data, c ≠ 'A' ∧ c ≠ 'v') ∧
      (∀ n : Nat, ∀ c ∈ ("visible IN (" ++ placeholders n ++ ")").data, c ≠ 'A' ∧ c ≠ 'm') := by
  refine ⟨?_, ?_, ?_, ?_, ?_⟩
  · simp [applyFilter_some]
  · rw [applyFilter_some]
    simp only [List.length_cons, Nat.add_sub_cancel, inClause_eq]
    simp [String.append_assoc]
  · rw [applyFilter_some]
    simp only [List.length_cons, Nat.add_sub_cancel, inClause_eq]
    simp [String.append_assoc]
  · intro n c hc
    simp only [String.data_append, List.mem_append] at hc
    rcases hc with (hc | hc) | hc
    · revert c; decide
    · rcases mem_placeholders hc with rfl | rfl <;> decide
    · revert c; decide
  · intro n c hc
    simp only [String.data_append, List.mem_append] at hc
    rcases hc with (hc | hc) | hc
    · revert c; decide
    · rcases mem_placeholders hc with rfl | rfl <;> decide
    · revert c; decide


/-! ### The sorter -/

theorem stableInsert_perm {α : Type} (less : α → α → Bool) (x : α) (l : List α) :
    (stableInsert less x l).Perm (x :: l) := by
  induction l with
  | nil => exact List.Perm.refl _
  | cons y l ih =>
    unfold stableInsert
    split
    · exact ((List.Perm.cons y ih).trans (List.Perm.swap x y l))
    · exact List.Perm.refl _

theorem SliceStable_perm {α : Type} (less : α → α → Bool) (l : List α) :
    (SliceStable l less).Perm l := by
  induction l with
  | nil => exact List.Perm.refl _
  | cons x l ih =>
    show (stableInsert less x (SliceStable l less)).Perm (x :: l)
    exact (stableInsert_perm less x _).trans (List.Perm.cons x ih)

theorem stableInsert_sorted {α : Type} (k : α → Int) (less : α → α → Bool)
    (hless : ∀ a b, less a b = decide (k a < k b)) (x : α) (l : List α)
    (hl : l.Pairwise (fun a b => k a ≤ k b)) :
    (stableInsert less x l).Pairwise (fun a b => k a ≤ k b) := by
  induction l with
  | nil => simp [stableInsert]
  | cons y l ih =>
    rw [List.pairwise_cons] at hl
    unfold stableInsert
    split
    · rename_i h
      rw [hless, decide_eq_true_eq] at h
      rw [List.pairwise_cons]
      refine ⟨?_, ih hl.2⟩
      intro z hz
      have hz' := (stableInsert_perm less x l).mem_iff.mp hz
      rw [List.mem_cons] at hz'
      rcases hz' with rfl | hz'
      · omega
      · exact hl.1 z hz'
    · rename_i h
      rw [hless, decide_eq_true_eq] at h
      rw [List.pairwise_cons]
      refine ⟨?_, List.pairwise_cons.mpr hl⟩
      intro z hz
      rw [List.mem_cons] at hz
      rcases hz with rfl | hz
      · omega
      · have := hl.1 z hz
        omega

theorem SliceStable_sorted {α : Type} (k : α → Int) (less : α → α → Bool)
    (hless : ∀ a b, less a b = decide (k a < k b)) (l : List α) :
    (SliceStable l less).Pairwise (fun a b => k a ≤ k b) := by
  induction l with
  | nil => exact List.Pairwise.nil
  | cons x l ih => exact stableInsert_sorted k less hless x _ ih

theorem stableInsert_filter {α : Type} (k : α → Int) (less : α → α → Bool)
    (hless : ∀ a b, less a b = decide (k a < k b)) (t : Int) (x : α) (l : List α) :
    (stableInsert less x l).filter (fun a => decide (k a = t))
      = (x :: l).filter (fun a => decide (k a = t)) := by
  induction l with
  | nil => rfl
  | cons y l ih =>
    unfold stableInsert
    split
    · rename_i h
      rw [hless, decide_eq_true_eq] at h
      rw [List.filter_cons, ih]
      by_cases hy : k y = t
      · have hx : ¬ k x = t := by omega
        simp [List.filter_cons, hy, hx]
      · simp [List.filter_cons, hy]
    · rfl

theorem SliceStable_filter {α : Type} (k : α → Int) (less : α → α → Bool)
    (hless : ∀ a b, less a b = decide (k a < k b)) (t : Int) (l : List α) :
    (SliceStable l less).filter (fun a => decide (k a = t))
      = l.filter (fun a => decide (k a = t)) := by
  induction l with
  | nil => rfl
  | cons x l ih =>
    show (stableInsert less x (SliceStable l less)).filter _ = _
    rw [stableInsert_filter k less hless, List.filter_cons, List.filter_cons, ih]

theorem less_asc (a b : Race) :
    racesRepo.less true a b = decide (a.start < b.start) := by
  simp [racesRepo.less, Time.Before, Race.start]

theorem less_desc (a b : Race) :
    racesRepo.less false a b = decide (-a.start < -b.start) := by
  simp [racesRepo.less, Time.After, Race.start]


/-! ### The materializer -/

theorem TimestampProto_of_convertible {t : Time} (h : Convertible t) :
    TimestampProto t = .ok (timestampOf t) := by
  have h1 : (-62135596800 : Int) ≤ t / 1000000000 := h.1
  have h2 : t / 1000000000 < (253402300800 : Int) := h.2
  have h3 : 0 ≤ t % 1000000000 := Int.emod_nonneg t (by decide)
  have h4 : t % 1000000000 < 1000000000 := Int.emod_lt_of_pos t (by decide)
  simp only [TimestampProto, validateTimestamp, timestampOf, minValidSeconds, maxValidSeconds]
  unfold Time at *
  rw [if_neg (by omega), if_neg (by omega), if_neg (by omega)]

theorem TimestampProto_of_not_convertible {t : Time} (h : ¬ Convertible t) :
    TimestampProto t = .error (Error.timestamp (t / 1000000000)) := by
  simp only [TimestampProto, validateTimestamp, timestampOf, minValidSeconds, maxValidSeconds]
  by_cases h1 : t / 1000000000 < -62135596800
  · rw [if_pos h1]
  · have h2 : t / 1000000000 ≥ 253402300800 := by
      by_contra h2
      exact h ⟨not_lt.mp h1, not_le.mp h2⟩
    rw [if_neg h1, if_pos h2]

theorem AsTime_timestampOf (t : Time) : (timestampOf t).AsTime = t := by
  simp only [Timestamp.AsTime, timestampOf]
  exact Int.ediv_add_emod' t 1000000000

theorem raceOf_row (r : RaceRow) (now : Time) : (raceOf r now).row = r := by
  simp [raceOf, Race.row, AsTime_timestampOf]

theorem raceOf_start (r : RaceRow) (now : Time) : (raceOf r now).start = r.AdvertisedStart := by
  simp [raceOf, Race.start, AsTime_timestampOf]

theorem racesOf_row (clock : Nat → Time) (i : Nat) (data : List RaceRow) :
    (racesOf clock i data).map Race.row = data := by
  induction data generalizing i with
  | nil => rfl
  | cons r rs ih => simp [racesOf, raceOf_row, ih]

theorem racesOf_length (clock : Nat → Time) (i : Nat) (data : List RaceRow) :
    (racesOf clock i data).length = data.length := by
  induction data generalizing i with
  | nil => rfl
  | cons r rs ih => simp [racesOf, ih]

theorem mem_racesOf {clock : Nat → Time} {i : Nat} {data : List RaceRow} {race : Race}
    (h : race ∈ racesOf clock i data) :
    ∃ j, ∃ hj : j < data.length, race = raceOf (data.get ⟨j, hj⟩) (clock (i + j)) := by
  induction data generalizing i with
  | nil => simp [racesOf] at h
  | cons r rs ih =>
    simp only [racesOf, List.mem_cons] at h
    rcases h with rfl | h
    · exact ⟨0, by simp, rfl⟩
    · obtain ⟨j, hj, hrace⟩ := ih h
      refine ⟨j + 1, by simp; omega, ?_⟩
      rw [hrace]
      simp only [List.get_eq_getElem, List.getElem_cons_succ]
      congr 2
      omega

theorem racesOf_filter_start (clock : Nat → Time) (i : Nat) (data : List RaceRow) (t : Time) :
    ((racesOf clock i data).filter (fun a => decide (a.start = t))).map Race.row
      = data.filter (fun r => decide (r.AdvertisedStart = t)) := by
  induction data generalizing i with
  | nil => rfl
  | cons r rs ih =>
    simp only [racesOf, List.filter_cons, raceOf_start]
    by_cases h : r.AdvertisedStart = t
    · simp [h, raceOf_row, ih]
    · simp [h, ih]

theorem scanRacesFrom_ok (clock : Nat → Time) (orderByAsc : Bool) (data : List RaceRow)
    (h : ∀ r ∈ data, Convertible r.AdvertisedStart) (i : Nat) (acc : List Race) :
    racesRepo.scanRacesFrom clock orderByAsc (data.map Except.ok) i acc
      = .ok (SliceStable (acc ++ racesOf clock i data) (racesRepo.less orderByAsc)) := by
  induction data generalizing i acc with
  | nil => simp [racesRepo.scanRacesFrom, racesOf]
  | cons r rs ih =>
    have hr := TimestampProto_of_convertible (h r (List.mem_cons_self _ _))
    simp only [List.map_cons, racesRepo.scanRacesFrom, hr]
    rw [ih (fun x hx => h x (List.mem_cons_of_mem _ hx))]
    simp [racesOf, raceOf]

theorem allMaterialize_iff (rows : Rows) :
    AllMaterialize rows ↔
      rows = (scannedRows rows).map Except.ok ∧
        ∀ r ∈ scannedRows rows, Convertible r.AdvertisedStart := by
  induction rows with
  | nil => simp [AllMaterialize, scannedRows]
  | cons row rows ih =>
    have hcons : AllMaterialize (row :: rows) ↔
        (∃ scanned, row = .ok scanned ∧ Convertible scanned.AdvertisedStart) ∧
          AllMaterialize rows := by
      simp [AllMaterialize]
    rw [hcons, ih]
    cases row with
    | error e =>
      constructor
      · rintro ⟨⟨s, hs, -⟩, -⟩
        cases hs
      · rintro ⟨h1, -⟩
        exfalso
        simp only [scannedRows, List.filterMap_cons] at h1
        generalize List.filterMap _ rows = l at h1
        cases l <;> simp at h1
    | ok scanned =>
      simp only [scannedRows, List.filterMap_cons, List.map_cons, List.mem_cons]
      constructor
      · rintro ⟨⟨s, hs, hc⟩, h1, h2⟩
        cases hs
        refine ⟨by rw [← h1], ?_⟩
        rintro x (rfl | hx)
        · exact hc
        · exact h2 x hx
      · rintro ⟨h1, h2⟩
        refine ⟨⟨scanned, rfl, h2 scanned (Or.inl rfl)⟩, ?_, fun x hx => h2 x (Or.inr hx)⟩
        simpa using h1

theorem scanRacesFrom_ok_inv (clock : Nat → Time) (orderByAsc : Bool) (rows : Rows) (i : Nat)
    (acc races : List Race)
    (h : racesRepo.scanRacesFrom clock orderByAsc rows i acc = .ok races) :
    races = [] ∨ AllMaterialize rows := by
  induction rows generalizing i acc with
  | nil => right; intro row hrow; cases hrow
  | cons row rows ih =>
    cases row with
    | error e =>
      left
      simp only [racesRepo.scanRacesFrom] at h
      split at h
      · simpa using h.symm
      · cases h
    | ok scanned =>
      simp only [racesRepo.scanRacesFrom] at h
      by_cases hc : Convertible scanned.AdvertisedStart
      · rw [TimestampProto_of_convertible hc] at h
        rcases ih _ _ h with h' | h'
        · exact Or.inl h'
        · right
          intro row hrow
          rw [List.mem_cons] at hrow
          rcases hrow with rfl | hrow
          · exact ⟨scanned, rfl, hc⟩
          · exact h' row hrow
      · rw [TimestampProto_of_not_convertible hc] at h
        cases h

theorem scanRaces_of_allMaterialize (clock : Nat → Time) (orderByAsc : Bool) (rows : Rows)
    (h : AllMaterialize rows) :
    racesRepo.scanRaces rows clock orderByAsc
      = .ok (SliceStable (racesOf clock 0 (scannedRows rows)) (racesRepo.less orderByAsc)) := by
  obtain ⟨h1, h2⟩ := (allMaterialize_iff rows).mp h
  unfold racesRepo.scanRaces
  conv_lhs => rw [h1]
  rw [scanRacesFrom_ok clock orderByAsc _ h2]
  simp

theorem SliceStable_less_sorted (orderByAsc : Bool) (l : List Race) :
    (orderByAsc = true →
        (SliceStable l (racesRepo.less orderByAsc)).Pairwise (fun a b => a.start ≤ b.start)) ∧
      (orderByAsc = false →
        (SliceStable l (racesRepo.less orderByAsc)).Pairwise (fun a b => b.start ≤ a.start)) := by
  constructor
  · rintro rfl
    exact SliceStable_sorted Race.start _ less_asc l
  · rintro rfl
    have h := SliceStable_sorted (fun a => -a.start) _ less_desc l
    refine h.imp ?_
    intro a b hab
    unfold Time at *
    omega

theorem SliceStable_less_filter (orderByAsc : Bool) (l : List Race) (t : Time) :
    (SliceStable l (racesRepo.less orderByAsc)).filter (fun a => decide (a.start = t))
      = l.filter (fun a => decide (a.start = t)) := by
  cases orderByAsc with
  | true => exact SliceStable_filter Race.start _ less_asc t l
  | false =>
    have h := SliceStable_filter (fun a => -a.start) _ less_desc (-t) l
    have hp : (fun a : Race => decide (-a.start = -t)) = (fun a => decide (a.start = t)) := by
      funext a
      simp
    rw [hp] at h
    exact h

/-- C8: when every row of the cursor materializes, `scanRaces` returns races whose stored
columns are a permutation of the cursor's rows (none dropped, none duplicated), with start
times non-decreasing when `orderByAsc` is true and non-increasing when it is false. -/
theorem scanRaces_sorted_permutation (rows : Rows) (clock : Nat → Time) (orderByAsc : Bool)
    (h : AllMaterialize rows) :
    ∃ races, racesRepo.scanRaces rows clock orderByAsc = .ok races ∧
      (races.map Race.row).Perm (scannedRows rows) ∧
      rows = (scannedRows rows).map Except.ok ∧
      (orderByAsc = true → races.Pairwise (fun a b => a.start ≤ b.start)) ∧
      (orderByAsc = false → races.Pairwise (fun a b => b.start ≤ a.start)) := by
  refine ⟨_, scanRaces_of_allMaterialize clock orderByAsc rows h, ?_,
    ((allMaterialize_iff rows).mp h).1, SliceStable_less_sorted orderByAsc _⟩
  have hp := (SliceStable_perm (racesRepo.less orderByAsc)
    (racesOf clock 0 (scannedRows rows))).map Race.row
  rwa [racesOf_row] at hp

/-- C9: the sort of `scanRaces` is stable in both directions. For every cursor and every
`orderByAsc`, the returned races that share a start time `t` appear in the order in which
the cursor produced their rows; and when every row materializes, a result is returned in
which the races starting at `t` are exactly the cursor's rows starting at `t`, in cursor
order. -/
theorem scanRaces_stable (rows : Rows) (clock : Nat → Time) (orderByAsc : Bool) :
    (∀ races, racesRepo.scanRaces rows clock orderByAsc = .ok races →
        ∀ t : Time, ((races.filter (fun a => decide (a.start = t))).map Race.row).Sublist
          ((scannedRows rows).filter (fun r => decide (r.AdvertisedStart = t)))) ∧
      (AllMaterialize rows →
        ∃ races, racesRepo.scanRaces rows clock orderByAsc = .ok races ∧
          ∀ t : Time, (races.filter (fun a => decide (a.start = t))).map Race.row
            = (scannedRows rows).filter (fun r => decide (r.AdvertisedStart = t))) := by
  have key : AllMaterialize rows →
      ∃ races, racesRepo.scanRaces rows clock orderByAsc = .ok races ∧
        ∀ t : Time, (races.filter (fun a => decide (a.start = t))).map Race.row
          = (scannedRows rows).filter (fun r => decide (r.AdvertisedStart = t)) := by
    intro h
    refine ⟨_, scanRaces_of_allMaterialize clock orderByAsc rows h, fun t => ?_⟩
    rw [SliceStable_less_filter, racesOf_filter_start]
  refine ⟨?_, key⟩
  intro races hraces t
  rcases scanRacesFrom_ok_inv clock orderByAsc rows 0 [] races hraces with h | h
  · subst h
    exact List.nil_sublist _
  · obtain ⟨races', h1, h2⟩ := key h
    rw [hraces] at h1
    cases h1
    rw [h2 t]

/-- C10: for a row that materializes and every evaluation instant, the status derived by
`scanRace` is `CLOSED` exactly when the start time is strictly before the instant and `OPEN`
otherwise, so a race starting exactly at the instant is `OPEN`; and every race returned by
`scanRaces` carries the columns of a cursor row and the status so derived from that row's
start time and the instant read for it. No other status occurs. -/
theorem status_closed_iff_started (scanned : RaceRow) (now : Time)
    (rows : Rows) (clock : Nat → Time) (orderByAsc : Bool)
    (hc : Convertible scanned.AdvertisedStart) (h : AllMaterialize rows) :
    (∃ race, racesRepo.scanRace (.ok scanned) now = .ok (some race) ∧ race.row = scanned ∧
        (race.Status = "CLOSED" ↔ scanned.AdvertisedStart < now) ∧
        (race.Status = "OPEN" ↔ ¬ scanned.AdvertisedStart < now) ∧
        (race.Status = "CLOSED" ∨ race.Status = "OPEN") ∧
        (scanned.AdvertisedStart = now → race.Status = "OPEN")) ∧
      (∃ races, racesRepo.scanRaces rows clock orderByAsc = .ok races ∧
        races.length = rows.length ∧
        ∀ race ∈ races, ∃ j, ∃ hj : j < (scannedRows rows).length,
          race.row = (scannedRows rows).get ⟨j, hj⟩ ∧
          (race.Status = "CLOSED" ↔ ((scannedRows rows).get ⟨j, hj⟩).AdvertisedStart < clock j) ∧
          (race.Status = "OPEN" ↔
            ¬ ((scannedRows rows).get ⟨j, hj⟩).AdvertisedStart < clock j) ∧
          (race.Status = "CLOSED" ∨ race.Status = "OPEN")) := by
  have hstatus : ∀ (r : RaceRow) (t : Time),
      ((raceOf r t).Status = "CLOSED" ↔ r.AdvertisedStart < t) ∧
        ((raceOf r t).Status = "OPEN" ↔ ¬ r.AdvertisedStart < t) := by
    intro r t
    by_cases hlt : r.AdvertisedStart < t
    · simp [raceOf, Time.Before, hlt]
    · simp [raceOf, Time.Before, hlt]
  have hvalues : ∀ (r : RaceRow) (t : Time),
      (raceOf r t).Status = "CLOSED" ∨ (raceOf r t).Status = "OPEN" := by
    intro r t
    by_cases hlt : r.AdvertisedStart < t
    · exact Or.inl ((hstatus r t).1.mpr hlt)
    · exact Or.inr ((hstatus r t).2.mpr hlt)
  constructor
  · refine ⟨raceOf scanned now, ?_, raceOf_row _ _, (hstatus _ _).1, (hstatus _ _).2,
      hvalues _ _, ?_⟩
    · simp [racesRepo.scanRace, TimestampProto_of_convertible hc, raceOf]
    · intro heq
      exact (hstatus _ _).2.mpr (by rw [heq]; exact lt_irrefl _)
  · refine ⟨_, scanRaces_of_allMaterialize clock orderByAsc rows h, ?_, ?_⟩
    · rw [(SliceStable_perm _ _).length_eq, racesOf_length]
      conv_rhs => rw [((allMaterialize_iff rows).mp h).1]
      simp
    · intro race hrace
      have hmem := (SliceStable_perm _ _).mem_iff.mp hrace
      obtain ⟨j, hj, rfl⟩ := mem_racesOf hmem
      have hs := hstatus ((scannedRows rows).get ⟨j, hj⟩) (clock j)
      have hv := hvalues ((scannedRows rows).get ⟨j, hj⟩) (clock j)
      simp only [Nat.zero_add]
      exact ⟨j, hj, raceOf_row _ _, hs.1, hs.2, hv⟩

/-! ### The engine and the entry points -/

theorem dropLeading_append (p s : List Char) : dropLeading p (p ++ s) = some s := by
  induction p with
  | nil => cases s <;> rfl
  | cons c p ih => simp [dropLeading, ih]

theorem parsePlaceholders_placeholders (k : Nat) (rest : List Char) :
    parsePlaceholders ((placeholders (k + 1)).data ++ ')' :: rest) = some (k + 1, rest) := by
  rw [placeholders_succ_data]
  induction k with
  | zero => simp [parsePlaceholders]
  | succ k ih =>
    simp only [List.replicate_succ, List.flatten_cons, List.cons_append, List.nil_append,
      List.append_assoc] at ih ⊢
    rw [parsePlaceholders]
    simp [ih]

theorem parsePredicate_meeting (k : Nat) (rest : List Char) :
    parsePredicate ("meeting_id IN (".data ++ ((placeholders (k + 1)).data ++ ')' :: rest))
      = some (Predicate.isIn Column.meeting_id (k + 1), rest) := by
  have h1 : parsePredicateOn
      ("meeting_id IN (".data ++ ((placeholders (k + 1)).data ++ ')' :: rest)) Column.id
        = none := rfl
  have h2 : parsePredicateOn
      ("meeting_id IN (".data ++ ((placeholders (k + 1)).data ++ ')' :: rest))
        Column.meeting_id = some (Predicate.isIn Column.meeting_id (k + 1), rest) := by
    unfold parsePredicateOn
    rw [show Column.meeting_id.ident.data ++ " IN (".data = "meeting_id IN (".data from rfl,
      dropLeading_append]
    simp only [parsePlaceholders_placeholders]
  simp only [parsePredicate, Column.all, List.findSome?, h1, h2]

theorem parsePredicate_visible (k : Nat) (rest : List Char) :
    parsePredicate ("visible IN (".data ++ ((placeholders (k + 1)).data ++ ')' :: rest))
      = some (Predicate.isIn Column.visible (k + 1), rest) := by
  have h1 : parsePredicateOn
      ("visible IN (".data ++ ((placeholders (k + 1)).data ++ ')' :: rest)) Column.id
        = none := rfl
  have h2 : parsePredicateOn
      ("visible IN (".data ++ ((placeholders (k + 1)).data ++ ')' :: rest)) Column.meeting_id
        = none := rfl
  have h3 : parsePredicateOn
      ("visible IN (".data ++ ((placeholders (k + 1)).data ++ ')' :: rest)) Column.number
        = none := rfl
  have h4 : parsePredicateOn
      ("visible IN (".data ++ ((placeholders (k + 1)).data ++ ')' :: rest))
        Column.visible = some (Predicate.isIn Column.visible (k + 1), rest) := by
    unfold parsePredicateOn
    rw [show Column.visible.ident.data ++ " IN (".data = "visible IN (".data from rfl,
      dropLeading_append]
    simp only [parsePlaceholders_placeholders]
  simp only [parsePredicate, Column.all, List.findSome?, h1, h2, h3, h4]

theorem parseConj_one (fuel : Nat) (text : List Char) (p : Predicate)
    (h : parsePredicate text = some (p, [])) : parseConj (fuel + 1) text = some [p] := by
  rw [parseConj, h]

theorem parseConj_two (fuel : Nat) (text more : List Char) (p p' : Predicate)
    (h : parsePredicate text = some (p, " AND ".data ++ more))
    (h' : parsePredicate more = some (p', [])) :
    parseConj (fuel + 2) text = some [p, p'] := by
  rw [parseConj, h]
  show (match dropLeading " AND ".data (" AND ".data ++ more) with
    | none => none
    | some more =>
      match parseConj (fuel + 1) more with
      | some ps => some (p :: ps)
      | none => none) = some [p, p']
  rw [dropLeading_append]
  simp only [parseConj_one fuel more p' h']

theorem parseWhere_where (rest : List Char) :
    parseWhere (" WHERE ".data ++ rest) = parseConj rest.length rest := by
  show (match dropLeading " WHERE ".data (" WHERE ".data ++ rest) with
    | some rest => parseConj rest.length rest
    | none => none) = _
  rw [dropLeading_append]

theorem any_meeting (r : RaceRow) (ms : List Int) :
    (ms.map SqlArg.int64).any (fun a => a.toInt == r.value Column.meeting_id)
      = decide (r.MeetingId ∈ ms) := by
  induction ms with
  | nil => simp
  | cons m ms ih =>
    simp only [List.map_cons, List.any_cons, ih]
    by_cases h : r.MeetingId = m
    · simp [SqlArg.toInt, RaceRow.value, h]
    · have h' : ¬ m = r.MeetingId := fun e => h e.symm
      simp [SqlArg.toInt, RaceRow.value, h, h']

theorem any_visible (r : RaceRow) (vs : List Bool) :
    (vs.map SqlArg.bool).any (fun a => a.toInt == r.value Column.visible)
      = decide (r.Visible ∈ vs) := by
  induction vs with
  | nil => simp
  | cons v vs ih =>
    simp only [List.map_cons, List.any_cons, ih]
    cases v <;> cases hr : r.Visible <;> simp [SqlArg.toInt, RaceRow.value, hr]

/-- The text appended by the compiler, as the engine reads it. -/
theorem parseWhere_applyFilter (q : String) (f : ListRacesRequestFilter) :
    ∃ tail : List Char, ∃ ps : List Predicate,
      (racesRepo.applyFilter q (some f)).1.data = q.data ++ tail ∧
      parseWhere tail = some ps ∧
      placeholderCount ps = (racesRepo.applyFilter q (some f)).2.length ∧
      ∀ r, holds ps (racesRepo.applyFilter q (some f)).2 r = Matches f r := by
  obtain ⟨ms, vs, asc⟩ := f
  rw [applyFilter_some]
  cases ms with
  | nil =>
    cases vs with
    | nil =>
      refine ⟨[], [], by simp, rfl, rfl, fun r => ?_⟩
      simp [holds, Matches]
    | cons v vs =>
      refine ⟨" WHERE ".data ++ ("visible IN (".data ++ ((placeholders (vs.length + 1)).data
        ++ [')'])), [Predicate.isIn Column.visible (vs.length + 1)], ?_, ?_, ?_, fun r => ?_⟩
      · simp only [List.length_nil, List.length_cons, gt_iff_lt, Nat.lt_irrefl, if_false,
          Nat.zero_lt_succ, if_true, Nat.add_sub_cancel, inClause_eq]
        simp [String.data_append]
      · rw [parseWhere_where]
        obtain ⟨fuel, hfuel⟩ : ∃ fuel, ("visible IN (".data ++ ((placeholders (vs.length + 1)).data
            ++ [')'])).length = fuel + 1 := ⟨_, by simp; rfl⟩
        rw [hfuel]
        exact parseConj_one fuel _ _ (parsePredicate_visible _ _)
      · simp [placeholderCount, Predicate.arity]
      · simp only [List.map_nil, List.nil_append, holds, Predicate.arity, Predicate.col,
          Bool.and_true]
        rw [List.take_of_length_le (by simp), any_visible]
        simp [Matches]
  | cons m ms =>
    cases vs with
    | nil =>
      refine ⟨" WHERE ".data ++ ("meeting_id IN (".data ++ ((placeholders (ms.length + 1)).data
        ++ [')'])), [Predicate.isIn Column.meeting_id (ms.length + 1)], ?_, ?_, ?_, fun r => ?_⟩
      · simp only [List.length_nil, List.length_cons, gt_iff_lt, Nat.lt_irrefl, if_false,
          Nat.zero_lt_succ, if_true, Nat.add_sub_cancel, inClause_eq]
        simp [String.data_append]
      · rw [parseWhere_where]
        obtain ⟨fuel, hfuel⟩ : ∃ fuel, ("meeting_id IN (".data ++
            ((placeholders (ms.length + 1)).data ++ [')'])).length = fuel + 1 :=
          ⟨_, by simp; rfl⟩
        rw [hfuel]
        exact parseConj_one fuel _ _ (parsePredicate_meeting _ _)
      · simp [placeholderCount, Predicate.arity]
      · simp only [List.map_nil, List.append_nil, holds, Predicate.arity, Predicate.col,
          Bool.and_true]
        rw [List.take_of_length_le (by simp), any_meeting]
        simp [Matches]
    | cons v vs =>
      refine ⟨" WHERE ".data ++ ("meeting_id IN (".data ++ ((placeholders (ms.length + 1)).data
        ++ ')' :: (" AND ".data ++ ("visible IN (".data ++ ((placeholders (vs.length + 1)).data
        ++ [')']))))),
        [Predicate.isIn Column.meeting_id (ms.length + 1),
          Predicate.isIn Column.visible (vs.length + 1)], ?_, ?_, ?_, fun r => ?_⟩
      · simp only [List.length_cons, gt_iff_lt, Nat.zero_lt_succ, if_true, Nat.add_sub_cancel,
          inClause_eq]
        simp [String.data_append]
      · rw [parseWhere_where]
        obtain ⟨fuel, hfuel⟩ : ∃ fuel, ("meeting_id IN (".data ++
            ((placeholders (ms.length + 1)).data ++ ')' :: (" AND ".data ++ ("visible IN (".data
            ++ ((placeholders (vs.length + 1)).data ++ [')']))))).length = fuel + 2 :=
          ⟨_, by simp; rfl⟩
        rw [hfuel]
        exact parseConj_two fuel _ _ _ _ (parsePredicate_meeting _ _)
          (parsePredicate_visible _ _)
      · simp [placeholderCount, Predicate.arity]
        omega
      · simp only [holds, Predicate.arity, Predicate.col, Bool.and_true]
        rw [List.take_left' (by simp), List.drop_left' (by simp),
          List.take_of_length_le (by simp), any_meeting, any_visible]
        simp [Matches]

theorem Query_applyFilter (db : DB) (f : ListRacesRequestFilter) :
    db.Query (racesRepo.applyFilter (getRaceQueries racesList) (some f)).1
        (racesRepo.applyFilter (getRaceQueries racesList) (some f)).2
      = .ok ((db.races.filter (Matches f)).map Except.ok) := by
  obtain ⟨tail, ps, h1, h2, h3, h4⟩ := parseWhere_applyFilter (getRaceQueries racesList) f
  unfold DB.Query
  rw [h1, dropLeading_append]
  simp only [h2, h3, if_true]
  congr 2
  exact List.filter_congr (fun r _ => h4 r)

theorem Query_base (db : DB) :
    db.Query (getRaceQueries racesList) [] = .ok (db.races.map Except.ok) := by
  unfold DB.Query
  have h := dropLeading_append (getRaceQueries racesList).data []
  rw [List.append_nil] at h
  rw [h]
  simp [parseWhere, placeholderCount, holds]

theorem Matches_iff (f : ListRacesRequestFilter) (row : RaceRow) :
    Matches f row = true ↔
      (f.MeetingIds = [] ∨ row.MeetingId ∈ f.MeetingIds) ∧
        (f.Visible = [] ∨ row.Visible ∈ f.Visible) := by
  simp [Matches, List.isEmpty_iff]

theorem allMaterialize_map_ok (data : List RaceRow)
    (h : ∀ row ∈ data, Convertible row.AdvertisedStart) :
    AllMaterialize (data.map Except.ok) ∧ scannedRows (data.map Except.ok) = data := by
  constructor
  · intro row hrow
    obtain ⟨scanned, hs, rfl⟩ := List.mem_map.mp hrow
    exact ⟨scanned, rfl, h scanned hs⟩
  · induction data with
    | nil => rfl
    | cons r rs ih =>
      simp only [scannedRows, List.map_cons, List.filterMap_cons] at ih ⊢
      rw [ih (fun row hrow => h row (List.mem_cons_of_mem _ hrow))]

/-- C1, amended: for every non-nil filter and every store content whose rows matching the
filter have start times in the range of protobuf timestamps, `List` returns races whose
stored columns are exactly the rows of the store that satisfy each non-empty field of the
filter (meeting id among the meeting ids, visible among the visible values), the compiled
clause and its arguments being read by the engine: none omitted, none added. -/
theorem List_returns_exactly_the_matching_races (r : racesRepo) (f : ListRacesRequestFilter)
    (clock : Nat → Time)
    (h : ∀ row ∈ r.db.races, Matches f row = true → Convertible row.AdvertisedStart) :
    ∃ races, racesRepo.List r (some f) clock = .ok races ∧
      (races.map Race.row).Perm (r.db.races.filter (Matches f)) ∧
      ∀ row, row ∈ races.map Race.row ↔
        row ∈ r.db.races ∧ (f.MeetingIds = [] ∨ row.MeetingId ∈ f.MeetingIds) ∧
          (f.Visible = [] ∨ row.Visible ∈ f.Visible) := by
  have hconv : ∀ row ∈ r.db.races.filter (Matches f), Convertible row.AdvertisedStart := by
    intro row hrow
    rw [List.mem_filter] at hrow
    exact h row hrow.1 hrow.2
  obtain ⟨hall, hscanned⟩ := allMaterialize_map_ok _ hconv
  have hperm : (List.map Race.row (SliceStable (racesOf clock 0 (r.db.races.filter (Matches f)))
      (racesRepo.less f.OrderByAsc))).Perm (r.db.races.filter (Matches f)) := by
    have hp := (SliceStable_perm (racesRepo.less f.OrderByAsc)
      (racesOf clock 0 (r.db.races.filter (Matches f)))).map Race.row
    rwa [racesOf_row] at hp
  refine ⟨SliceStable (racesOf clock 0 (r.db.races.filter (Matches f)))
    (racesRepo.less f.OrderByAsc), ?_, hperm, ?_⟩
  · unfold racesRepo.List
    simp only [Query_applyFilter, scanRaces_of_allMaterialize clock f.OrderByAsc _ hall,
      hscanned]
  · intro row
    rw [hperm.mem_iff, List.mem_filter, Matches_iff]

/-- C2: with a nil filter `List` does not return. The query succeeds for every store
content, and then reading `filter.OrderByAsc` through the nil pointer panics. -/
theorem List_nil_filter_panics (r : racesRepo) (clock : Nat → Time) :
    racesRepo.List r none clock = Outcome.panic := by
  unfold racesRepo.List
  simp only [racesRepo.applyFilter, Query_base]

/-! ### The statements on the example data -/

/-- Witness of C1, the example of the specification: the filter for meeting 3 and visible
races, ascending, over the three seeded rows returns exactly row 1, whose status is
`CLOSED`. -/
theorem List_returns_exactly_the_matching_races_witness :
    (∀ row ∈ exampleRepo.db.races,
        Matches exampleFilter row = true → Convertible row.AdvertisedStart) ∧
      racesRepo.List exampleRepo (some exampleFilter) (fun _ => exampleNow)
        = .ok [{ Id := 1, MeetingId := 3, Name := "Race 1", Number := 1, Visible := true,
                 AdvertisedStartTime := { Seconds := 1699996400, Nanos := 0 },
                 Status := "CLOSED" }] ∧
      ∃ races, racesRepo.List exampleRepo (some exampleFilter) (fun _ => exampleNow)
          = .ok races ∧
        (races.map Race.row).Perm (exampleRepo.db.races.filter (Matches exampleFilter)) ∧
        ∀ row, row ∈ races.map Race.row ↔
          row ∈ exampleRepo.db.races ∧
            (exampleFilter.MeetingIds = [] ∨ row.MeetingId ∈ exampleFilter.MeetingIds) ∧
            (exampleFilter.Visible = [] ∨ row.Visible ∈ exampleFilter.Visible) :=
  ⟨by decide, by decide,
    List_returns_exactly_the_matching_races exampleRepo exampleFilter (fun _ => exampleNow)
      (by decide)⟩

/-- Counterexample to C1 as stated for every store content: the only stored row matches the
filter, its start time 10000-01-01T00:00:00Z does not convert, and `List` returns the
conversion error instead of the matching race. -/
theorem List_omits_match_outside_timestamp_range :
    farFutureRepo.db.races.filter (Matches exampleFilter) = farFutureRepo.db.races ∧
      racesRepo.List farFutureRepo (some exampleFilter) (fun _ => exampleNow)
        = Outcome.error (Error.timestamp 253402300800) ∧
      ¬ ∃ races, racesRepo.List farFutureRepo (some exampleFilter) (fun _ => exampleNow)
          = .ok races ∧
        (races.map Race.row).Perm (farFutureRepo.db.races.filter (Matches exampleFilter)) := by
  have h : racesRepo.List farFutureRepo (some exampleFilter) (fun _ => exampleNow)
      = Outcome.error (Error.timestamp 253402300800) := by decide
  refine ⟨by decide, h, ?_⟩
  rintro ⟨races, hraces, -⟩
  rw [h] at hraces
  cases hraces

/-- Witness of C4: two meeting ids and one visible value. -/
theorem applyFilter_two_clauses_witness :
    1 ≤ twoMeetingsFilter.MeetingIds.length ∧ 1 ≤ twoMeetingsFilter.Visible.length ∧
      (racesRepo.applyFilter "SELECT id FROM races" (some twoMeetingsFilter)).1
        = "SELECT id FROM races WHERE meeting_id IN (?,?) AND visible IN (?)" ∧
      ((racesRepo.applyFilter "SELECT id FROM races" (some twoMeetingsFilter)).1
          = "SELECT id FROM races" ++ " WHERE meeting_id IN ("
              ++ placeholders twoMeetingsFilter.MeetingIds.length
              ++ ") AND visible IN (" ++ placeholders twoMeetingsFilter.Visible.length ++ ")" ∧
        (∀ n : Nat, countPlaceholders (placeholders n) = n ∧
          (placeholders n).data.count ',' = n - 1 ∧
          (placeholders n).data.length = 2 * n - 1)) :=
  ⟨by decide, by decide, by decide,
    applyFilter_two_clauses "SELECT id FROM races" twoMeetingsFilter (by decide) (by decide)⟩

/-- Witness of C8 on the cursor with tied start times, descending: the races come back in
the order 1, 3, 2, 4. -/
theorem scanRaces_sorted_permutation_witness :
    AllMaterialize tiedCursor ∧
      Except.map (List.map Race.Id)
          (racesRepo.scanRaces tiedCursor (fun _ => exampleNow) false) = .ok [1, 3, 2, 4] ∧
      ∃ races, racesRepo.scanRaces tiedCursor (fun _ => exampleNow) false = .ok races ∧
        (races.map Race.row).Perm (scannedRows tiedCursor) ∧
        tiedCursor = (scannedRows tiedCursor).map Except.ok ∧
        (false = true → races.Pairwise (fun a b => a.start ≤ b.start)) ∧
        (false = false → races.Pairwise (fun a b => b.start ≤ a.start)) :=
  ⟨(allMaterialize_map_ok tiedRows (by decide)).1, rfl,
    scanRaces_sorted_permutation tiedCursor (fun _ => exampleNow) false
      (allMaterialize_map_ok tiedRows (by decide)).1⟩

/-- Witness of C9 on the cursor with tied start times: descending gives 1, 3, 2, 4 and
ascending gives 2, 4, 1, 3; the tied pairs (1, 3) and (2, 4) keep their cursor order in both
directions. -/
theorem scanRaces_stable_witness :
    AllMaterialize tiedCursor ∧
      Except.map (List.map Race.Id)
          (racesRepo.scanRaces tiedCursor (fun _ => exampleNow) false) = .ok [1, 3, 2, 4] ∧
      Except.map (List.map Race.Id)
          (racesRepo.scanRaces tiedCursor (fun _ => exampleNow) true) = .ok [2, 4, 1, 3] ∧
      ∃ races, racesRepo.scanRaces tiedCursor (fun _ => exampleNow) false = .ok races ∧
        ∀ t : Time, (races.filter (fun a => decide (a.start = t))).map Race.row
          = (scannedRows tiedCursor).filter (fun r => decide (r.AdvertisedStart = t)) :=
  ⟨(allMaterialize_map_ok tiedRows (by decide)).1, rfl, rfl,
    (scanRaces_stable tiedCursor (fun _ => exampleNow) false).2
      (allMaterialize_map_ok tiedRows (by decide)).1⟩

/-- Witness of C10: a race that starts exactly at the evaluation instant is `OPEN`. -/
theorem status_closed_iff_started_witness :
    Convertible startingNow.AdvertisedStart ∧ AllMaterialize tiedCursor ∧
      racesRepo.scanRace (.ok startingNow) exampleNow
        = .ok (some { Id := 7, MeetingId := 3, Name := "Race 7", Number := 7, Visible := true,
                      AdvertisedStartTime := { Seconds := 1700000000, Nanos := 0 },
                      Status := "OPEN" }) ∧
      Except.map (List.map Race.Status)
          (racesRepo.scanRaces tiedCursor (fun _ => exampleNow) true)
        = .ok ["CLOSED", "CLOSED", "OPEN", "OPEN"] ∧
      ∃ race, racesRepo.scanRace (.ok startingNow) exampleNow = .ok (some race) ∧
        race.row = startingNow ∧
        (race.Status = "CLOSED" ↔ startingNow.AdvertisedStart < exampleNow) ∧
        (race.Status = "OPEN" ↔ ¬ startingNow.AdvertisedStart < exampleNow) ∧
        (race.Status = "CLOSED" ∨ race.Status = "OPEN") ∧
        (startingNow.AdvertisedStart = exampleNow → race.Status = "OPEN") :=
  ⟨by decide, (allMaterialize_map_ok tiedRows (by decide)).1, rfl, rfl,
    (status_closed_iff_started startingNow exampleNow tiedCursor (fun _ => exampleNow) true
      (by decide) (allMaterialize_map_ok tiedRows (by decide)).1).1⟩

/-! ### Failures while scanning -/

theorem scanRacesFrom_append_ok (clock : Nat → Time) (orderByAsc : Bool) (data : List RaceRow)
    (h : ∀ r ∈ data, Convertible r.AdvertisedStart) (rest : Rows) (i : Nat) (acc : List Race) :
    racesRepo.scanRacesFrom clock orderByAsc (data.map Except.ok ++ rest) i acc
      = racesRepo.scanRacesFrom clock orderByAsc rest (i + data.length)
          (acc ++ racesOf clock i data) := by
  induction data generalizing i acc with
  | nil => simp [racesOf]
  | cons r rs ih =>
    have hr := TimestampProto_of_convertible (h r (List.mem_cons_self _ _))
    simp only [List.map_cons, List.cons_append, racesRepo.scanRacesFrom, hr, List.append_eq]
    rw [ih (fun x hx => h x (List.mem_cons_of_mem _ hx))]
    simp only [racesOf, raceOf, List.length_cons, List.append_assoc, List.singleton_append]
    congr 1
    omega

theorem scanRaces_after_materialized (clock : Nat → Time) (orderByAsc : Bool) (before : Rows)
    (h : AllMaterialize before) (rest : Rows) :
    racesRepo.scanRaces (before ++ rest) clock orderByAsc
      = racesRepo.scanRacesFrom clock orderByAsc rest before.length
          (racesOf clock 0 (scannedRows before)) := by
  obtain ⟨h1, h2⟩ := (allMaterialize_iff before).mp h
  unfold racesRepo.scanRaces
  have hlen : before.length = (scannedRows before).length := by
    conv_lhs => rw [h1]
    simp
  conv_lhs => rw [h1]
  rw [scanRacesFrom_append_ok clock orderByAsc _ h2, hlen]
  simp

/-- C19: the single-row and the batch materializer agree. For every row that scans and
converts and one evaluation instant, the race that `scanRace` returns is the sole element of
what `scanRaces` returns on the one-row cursor, for either direction: same id, meeting id,
name, number, visible, start time and status. -/
theorem scanRace_agrees_with_scanRaces (scanned : RaceRow) (now : Time) (clock : Nat → Time)
    (orderByAsc : Bool) (hc : Convertible scanned.AdvertisedStart) (hclock : clock 0 = now) :
    ∃ race, racesRepo.scanRace (.ok scanned) now = .ok (some race) ∧
      racesRepo.scanRaces [.ok scanned] clock orderByAsc = .ok [race] ∧
      race.row = scanned := by
  refine ⟨raceOf scanned now, ?_, ?_, raceOf_row _ _⟩
  · simp [racesRepo.scanRace, TimestampProto_of_convertible hc, raceOf]
  · simp [racesRepo.scanRaces, racesRepo.scanRacesFrom, TimestampProto_of_convertible hc,
      raceOf, hclock, SliceStable, stableInsert]

/-- What `scanRaces` returns at a failing row that follows rows that materialize, by the
three branches of the loop body. -/
theorem scanRaces_at_failing_row (before : Rows) (failing : Except Error RaceRow) (after : Rows)
    (clock : Nat → Time) (orderByAsc : Bool) (h : AllMaterialize before) :
    (∀ err, failing = .error err → err ≠ Error.ErrNoRows →
        racesRepo.scanRaces (before ++ failing :: after) clock orderByAsc = .error err) ∧
      (∀ scanned err, failing = .ok scanned → TimestampProto scanned.AdvertisedStart = .error err →
        racesRepo.scanRaces (before ++ failing :: after) clock orderByAsc = .error err) ∧
      (failing = .error Error.ErrNoRows →
        racesRepo.scanRaces (before ++ failing :: after) clock orderByAsc = .ok []) := by
  rw [scanRaces_after_materialized clock orderByAsc before h]
  refine ⟨?_, ?_, ?_⟩
  · rintro err rfl hne
    simp [racesRepo.scanRacesFrom, hne]
  · rintro scanned err rfl herr
    simp [racesRepo.scanRacesFrom, herr]
  · rintro rfl
    simp [racesRepo.scanRacesFrom]

/-- A cursor in which not every row materializes splits at its first failing row. -/
theorem split_at_first_failure (rows : Rows) (hfail : ¬ AllMaterialize rows) :
    ∃ before failing after, rows = before ++ failing :: after ∧ AllMaterialize before ∧
      ¬ ∃ scanned, failing = .ok scanned ∧ Convertible scanned.AdvertisedStart := by
  induction rows with
  | nil =>
    exfalso
    apply hfail
    intro row hrow
    cases hrow
  | cons row rest ih =>
    by_cases hrow : ∃ scanned, row = .ok scanned ∧ Convertible scanned.AdvertisedStart
    · have hrest : ¬ AllMaterialize rest := by
        intro hall
        apply hfail
        intro x hx
        rw [List.mem_cons] at hx
        rcases hx with rfl | hx
        · exact hrow
        · exact hall x hx
      obtain ⟨before, failing, after, heq, hbefore, hfailing⟩ := ih hrest
      refine ⟨row :: before, failing, after, by rw [heq, List.cons_append], ?_, hfailing⟩
      intro x hx
      rw [List.mem_cons] at hx
      rcases hx with rfl | hx
      · exact hrow
      · exact hbefore x hx
    · refine ⟨[], row, rest, rfl, ?_, hrow⟩
      intro x hx
      cases hx

/-- C17: for every cursor that `(*sql.Rows).Scan` delivers and in which some row fails to
scan or fails timestamp conversion, `scanRaces` returns the error of the first failing row
and no races, however many rows materialize before that row: no list is returned with the
error, and what follows the failing row is not examined, any other continuation of the
cursor giving the same result. -/
theorem scanRaces_first_failure (rows : Rows) (clock : Nat → Time) (orderByAsc : Bool)
    (hscan : DeliveredByRowsScan rows) (hfail : ¬ AllMaterialize rows) :
    ∃ before failing after err,
      rows = before ++ failing :: after ∧ AllMaterialize before ∧
      (failing = .error err ∨
        ∃ scanned, failing = .ok scanned ∧
          TimestampProto scanned.AdvertisedStart = .error err) ∧
      racesRepo.scanRaces rows clock orderByAsc = .error err ∧
      (∀ races, racesRepo.scanRaces rows clock orderByAsc ≠ .ok races) ∧
      ∀ other : Rows,
        racesRepo.scanRaces (before ++ failing :: other) clock orderByAsc = .error err := by
  obtain ⟨before, failing, after, heq, hbefore, hfailing⟩ := split_at_first_failure rows hfail
  have hmem : failing ∈ rows := by
    rw [heq]
    exact List.mem_append_right _ (List.mem_cons_self _ _)
  have hkey : ∃ err, (failing = .error err ∨
      ∃ scanned, failing = .ok scanned ∧
        TimestampProto scanned.AdvertisedStart = .error err) ∧
      ∀ other : Rows,
        racesRepo.scanRaces (before ++ failing :: other) clock orderByAsc = .error err := by
    cases hf : failing with
    | error err =>
      have hne : err ≠ Error.ErrNoRows := by
        rintro rfl
        exact hscan failing hmem hf
      refine ⟨err, Or.inl rfl, fun other => ?_⟩
      rw [scanRaces_after_materialized clock orderByAsc before hbefore]
      simp [racesRepo.scanRacesFrom, hne]
    | ok scanned =>
      have hnc : ¬ Convertible scanned.AdvertisedStart := fun hc => hfailing ⟨scanned, hf, hc⟩
      have herr := TimestampProto_of_not_convertible hnc
      refine ⟨_, Or.inr ⟨scanned, rfl, herr⟩, fun other => ?_⟩
      rw [scanRaces_after_materialized clock orderByAsc before hbefore]
      simp [racesRepo.scanRacesFrom, herr]
  obtain ⟨err, hwhich, hall⟩ := hkey
  have hres : racesRepo.scanRaces rows clock orderByAsc = .error err := by
    rw [heq]
    exact hall after
  refine ⟨before, failing, after, err, heq, hbefore, hwhich, hres, ?_, hall⟩
  intro races hraces
  rw [hres] at hraces
  cases hraces

/-! ### Lookup by id -/

theorem parseWhere_id :
    parseWhere [' ', 'W', 'H', 'E', 'R', 'E', ' ', 'i', 'd', ' ', '=', ' ', '?']
      = some [Predicate.equals Column.id] := by
  rfl

theorem Query_by_id (db : DB) (id : Int) :
    db.Query (getRaceQueries racesList ++ " WHERE id = ?") [SqlArg.int64 id]
      = .ok ((db.races.filter (fun r => decide (r.Id = id))).map Except.ok) := by
  unfold DB.Query
  rw [String.data_append, dropLeading_append]
  simp only [parseWhere_id]
  have hholds : ∀ r : RaceRow, holds [Predicate.equals Column.id] [SqlArg.int64 id] r
      = decide (r.Id = id) := by
    intro r
    by_cases h : r.Id = id
    · simp [holds, Predicate.arity, Predicate.col, SqlArg.toInt, RaceRow.value, h]
    · have h' : ¬ id = r.Id := fun e => h e.symm
      simp [holds, Predicate.arity, Predicate.col, SqlArg.toInt, RaceRow.value, h, h']
  simp only [placeholderCount, Predicate.arity, List.map_cons, List.map_nil, List.sum_cons,
    List.sum_nil, List.length_cons, List.length_nil]
  rw [if_pos (by decide)]
  congr 2
  exact List.filter_congr (fun r _ => hholds r)

theorem Get_eq (r : racesRepo) (id : Int) (now : Time) :
    racesRepo.Get r id now =
      racesRepo.scanRace
        (match r.db.races.find? (fun row => decide (row.Id = id)) with
          | none => .error Error.ErrNoRows
          | some row => .ok row) now := by
  unfold racesRepo.Get DB.QueryRow
  simp only [Query_by_id]
  induction r.db.races with
  | nil => rfl
  | cons row rows ih =>
    by_cases h : row.Id = id
    · simp [List.filter_cons, List.find?_cons, h]
    · simp only [List.filter_cons, List.find?_cons, h, decide_False, Bool.false_eq_true,
        if_false]
      exact ih

/-- C15: `Get` on an id that no stored row has returns no race and no error; on an id whose
stored row converts it returns the race with the columns of that row and no error. The row
of an id is the first one the store yields for it, and the only one when ids are unique as
the primary key requires. -/
theorem Get_absent_or_the_row (r : racesRepo) (id : Int) (now : Time) :
    ((∀ row ∈ r.db.races, row.Id ≠ id) → racesRepo.Get r id now = .ok none) ∧
      (∀ row, r.db.races.find? (fun stored => decide (stored.Id = id)) = some row →
        Convertible row.AdvertisedStart →
        ∃ race, racesRepo.Get r id now = .ok (some race) ∧ race.row = row ∧ race.Id = id) ∧
      (∀ row, (r.db.races.map RaceRow.Id).Nodup → row ∈ r.db.races → row.Id = id →
        Convertible row.AdvertisedStart →
        ∃ race, racesRepo.Get r id now = .ok (some race) ∧ race.row = row ∧ race.Id = id) := by
  have hfound : ∀ row, r.db.races.find? (fun stored => decide (stored.Id = id)) = some row →
      Convertible row.AdvertisedStart →
      ∃ race, racesRepo.Get r id now = .ok (some race) ∧ race.row = row ∧ race.Id = id := by
    intro row hfind hc
    have hid : row.Id = id := by simpa using List.find?_some hfind
    refine ⟨raceOf row now, ?_, raceOf_row _ _, hid⟩
    rw [Get_eq, hfind]
    simp [racesRepo.scanRace, TimestampProto_of_convertible hc, raceOf]
  refine ⟨?_, hfound, ?_⟩
  · intro hnone
    rw [Get_eq]
    have hfind : r.db.races.find? (fun row => decide (row.Id = id)) = none := by
      rw [List.find?_eq_none]
      intro row hrow
      simpa using hnone row hrow
    rw [hfind]
    rfl
  · intro row hnodup hmem hid hc
    refine hfound row ?_ hc
    generalize r.db.races = rows at hnodup hmem
    induction rows with
    | nil => cases hmem
    | cons first rows ih =>
      rw [List.map_cons, List.nodup_cons] at hnodup
      rw [List.mem_cons] at hmem
      rcases hmem with rfl | hmem
      · simp [List.find?_cons, hid]
      · have hne : first.Id ≠ id := by
          intro heq
          exact hnodup.1 (List.mem_map.mpr ⟨row, hmem, by rw [hid, heq]⟩)
        simp only [List.find?_cons, hne, decide_False]
        exact ih hnodup.2 hmem

/-! ### Status over time, and the two directions of the sort -/

theorem stableInsert_map {α β : Type} (f : α → β) (less : β → β → Bool) (less' : α → α → Bool)
    (h : ∀ a b, less (f a) (f b) = less' a b) (x : α) (l : List α) :
    stableInsert less (f x) (l.map f) = (stableInsert less' x l).map f := by
  induction l with
  | nil => rfl
  | cons y l ih =>
    simp only [List.map_cons, stableInsert, h, ih]
    split <;> simp

theorem SliceStable_map {α β : Type} (f : α → β) (less : β → β → Bool) (less' : α → α → Bool)
    (h : ∀ a b, less (f a) (f b) = less' a b) (l : List α) :
    SliceStable (l.map f) less = (SliceStable l less').map f := by
  induction l with
  | nil => rfl
  | cons x l ih =>
    show stableInsert less (f x) (SliceStable (l.map f) less) = _
    rw [ih, stableInsert_map f less less' h]
    rfl

theorem racesOf_eq_map (clock : Nat → Time) (i : Nat) (data : List RaceRow) :
    racesOf clock i data = (data.enumFrom i).map (fun p => raceOf p.2 (clock p.1)) := by
  induction data generalizing i with
  | nil => rfl
  | cons r rs ih => simp [racesOf, List.enumFrom, ih]

/-- The order in which `scanRaces` returns the rows does not depend on the clock. -/
theorem sorted_racesOf_eq_map (clock : Nat → Time) (orderByAsc : Bool) (data : List RaceRow) :
    SliceStable (racesOf clock 0 data) (racesRepo.less orderByAsc)
      = (SliceStable (data.enumFrom 0)
          (fun p q => racesRepo.less orderByAsc (raceOf p.2 0) (raceOf q.2 0))).map
          (fun p => raceOf p.2 (clock p.1)) := by
  rw [racesOf_eq_map]
  exact SliceStable_map _ _ _ (fun _ _ => rfl) _

theorem raceOf_status_closed (r : RaceRow) (t : Time) :
    (raceOf r t).Status = "CLOSED" ↔ r.AdvertisedStart < t := by
  by_cases hlt : r.AdvertisedStart < t
  · simp [raceOf, Time.Before, hlt]
  · simp [raceOf, Time.Before, hlt]

theorem scanRace_of_convertible (scanned : RaceRow) (now : Time)
    (hc : Convertible scanned.AdvertisedStart) :
    racesRepo.scanRace (.ok scanned) now = .ok (some (raceOf scanned now)) := by
  simp [racesRepo.scanRace, TimestampProto_of_convertible hc, raceOf]

/-- C11: the derived status never regresses. For a stored row that converts and two
evaluation instants `t1 ≤ t2`, if `scanRace` derives `CLOSED` at `t1` it derives `CLOSED` at
`t2`; the same holds race by race for two runs of `scanRaces` over the same cursor whose
clocks satisfy `clock1 i ≤ clock2 i`, the two results listing the same rows in the same
order. `OPEN` at one instant and `CLOSED` at a later one does occur. -/
theorem status_never_regresses (scanned : RaceRow) (t1 t2 : Time) (rows : Rows)
    (clock1 clock2 : Nat → Time) (orderByAsc : Bool)
    (hc : Convertible scanned.AdvertisedStart) (hrows : AllMaterialize rows)
    (ht : t1 ≤ t2) (hclock : ∀ i, clock1 i ≤ clock2 i) :
    (∃ race1 race2, racesRepo.scanRace (.ok scanned) t1 = .ok (some race1) ∧
        racesRepo.scanRace (.ok scanned) t2 = .ok (some race2) ∧
        race1.row = scanned ∧ race2.row = scanned ∧
        (race1.Status = "CLOSED" → race2.Status = "CLOSED")) ∧
      (∃ races1 races2, racesRepo.scanRaces rows clock1 orderByAsc = .ok races1 ∧
        racesRepo.scanRaces rows clock2 orderByAsc = .ok races2 ∧
        List.Forall₂ (fun a b => a.row = b.row ∧ (a.Status = "CLOSED" → b.Status = "CLOSED"))
          races1 races2) ∧
      (∃ race1 race2, racesRepo.scanRace (.ok startingNow) exampleNow = .ok (some race1) ∧
        racesRepo.scanRace (.ok startingNow) (exampleNow + hour) = .ok (some race2) ∧
        race1.Status = "OPEN" ∧ race2.Status = "CLOSED") := by
  have hmono : ∀ (r : RaceRow) (a b : Time), a ≤ b →
      (raceOf r a).Status = "CLOSED" → (raceOf r b).Status = "CLOSED" := by
    intro r a b hab hclosed
    rw [raceOf_status_closed] at hclosed ⊢
    exact lt_of_lt_of_le hclosed hab
  refine ⟨⟨raceOf scanned t1, raceOf scanned t2, scanRace_of_convertible _ _ hc,
    scanRace_of_convertible _ _ hc, raceOf_row _ _, raceOf_row _ _, hmono scanned t1 t2 ht⟩,
    ⟨_, _, scanRaces_of_allMaterialize clock1 orderByAsc rows hrows,
      scanRaces_of_allMaterialize clock2 orderByAsc rows hrows, ?_⟩,
    ⟨_, _, rfl, rfl, rfl, rfl⟩⟩
  rw [sorted_racesOf_eq_map clock1, sorted_racesOf_eq_map clock2, List.forall₂_map_left_iff,
    List.forall₂_map_right_iff, List.forall₂_same]
  intro p _
  exact ⟨by rw [raceOf_row, raceOf_row], hmono p.2 _ _ (hclock p.1)⟩

/-- C16: for a row whose start time does not convert, the batch path `scanRaces` returns the
conversion error (and no races), while the single-row path `scanRace` returns no race and no
error, the same result as for `sql.ErrNoRows`; a scan failure other than `sql.ErrNoRows` is
returned as the error by both paths. -/
theorem conversion_failure_differs_between_paths (scanned : RaceRow) (now : Time)
    (before after : Rows) (clock : Nat → Time) (orderByAsc : Bool) (err : Error)
    (hfail : ¬ Convertible scanned.AdvertisedStart) (hbefore : AllMaterialize before)
    (herr : err ≠ Error.ErrNoRows) :
    racesRepo.scanRaces (before ++ .ok scanned :: after) clock orderByAsc
        = .error (Error.timestamp (scanned.AdvertisedStart / 1000000000)) ∧
      racesRepo.scanRace (.ok scanned) now = .ok none ∧
      racesRepo.scanRace (.error Error.ErrNoRows) now = .ok none ∧
      racesRepo.scanRaces (before ++ .error err :: after) clock orderByAsc = .error err ∧
      racesRepo.scanRace (.error err) now = .error err := by
  refine ⟨?_, ?_, rfl, ?_, ?_⟩
  · rw [scanRaces_after_materialized clock orderByAsc before hbefore]
    simp [racesRepo.scanRacesFrom, TimestampProto_of_not_convertible hfail]
  · simp [racesRepo.scanRace, TimestampProto_of_not_convertible hfail]
  · rw [scanRaces_after_materialized clock orderByAsc before hbefore]
    simp [racesRepo.scanRacesFrom, herr]
  · simp [racesRepo.scanRace, herr]

theorem pairwise_lt_of_le_of_ne {l : List Race}
    (hle : l.Pairwise (fun a b => a.start ≤ b.start))
    (hne : l.Pairwise (fun a b => a.start ≠ b.start)) :
    l.Pairwise (fun a b => a.start < b.start) := by
  have h := hle.and hne
  exact h.imp (fun hab => lt_of_le_of_ne hab.1 hab.2)

/-- C20: when every row materializes and the start times are pairwise distinct, the result
of `scanRaces` with `orderByAsc = false` is the reverse of its result with
`orderByAsc = true`; on the cursor with tied start times it is not, because ties keep cursor
order in both directions. -/
theorem descending_is_reverse_of_ascending (rows : Rows) (clock : Nat → Time)
    (hrows : AllMaterialize rows)
    (hdistinct : (scannedRows rows).Pairwise
      (fun a b => a.AdvertisedStart ≠ b.AdvertisedStart)) :
    (∃ up down, racesRepo.scanRaces rows clock true = .ok up ∧
        racesRepo.scanRaces rows clock false = .ok down ∧ down = up.reverse) ∧
      (∃ up down, racesRepo.scanRaces tiedCursor (fun _ => exampleNow) true = .ok up ∧
        racesRepo.scanRaces tiedCursor (fun _ => exampleNow) false = .ok down ∧
        down ≠ up.reverse ∧ up.map Race.Id = [2, 4, 1, 3] ∧ down.map Race.Id = [1, 3, 2, 4]) := by
  constructor
  · refine ⟨_, _, scanRaces_of_allMaterialize clock true rows hrows,
      scanRaces_of_allMaterialize clock false rows hrows, ?_⟩
    haveI : IsAntisymm Race (fun a b => a.start < b.start) :=
      ⟨fun _ _ hab hba => absurd hab (not_lt_of_gt hba)⟩
    have hne : (racesOf clock 0 (scannedRows rows)).Pairwise
        (fun a b => a.start ≠ b.start) := by
      have h : ((racesOf clock 0 (scannedRows rows)).map Race.row).Pairwise
          (fun a b => a.AdvertisedStart ≠ b.AdvertisedStart) := by
        rw [racesOf_row]
        exact hdistinct
      rw [List.pairwise_map] at h
      exact h
    have hsymm : ∀ a b : Race, a.start ≠ b.start → b.start ≠ a.start := fun _ _ h => h.symm
    have hpu := SliceStable_perm (racesRepo.less true) (racesOf clock 0 (scannedRows rows))
    have hpd := SliceStable_perm (racesRepo.less false) (racesOf clock 0 (scannedRows rows))
    have hup := pairwise_lt_of_le_of_ne ((SliceStable_less_sorted true _).1 rfl)
      ((hpu.pairwise_iff (fun {a b} h => hsymm a b h)).mpr hne)
    have hdown : (SliceStable (racesOf clock 0 (scannedRows rows))
        (racesRepo.less false)).reverse.Pairwise (fun a b => a.start < b.start) := by
      rw [List.pairwise_reverse]
      have hle := (SliceStable_less_sorted false (racesOf clock 0 (scannedRows rows))).2 rfl
      have hne' := (hpd.pairwise_iff (fun {a b} h => hsymm a b h)).mpr hne
      exact (hle.and hne').imp (fun hab => lt_of_le_of_ne hab.1 (Ne.symm hab.2))
    have heq := List.eq_of_perm_of_sorted
      (((List.reverse_perm _).trans hpd).trans hpu.symm) hdown hup
    rw [← heq, List.reverse_reverse]
  · refine ⟨_, _, rfl, rfl, ?_, rfl, rfl⟩
    decide

/-! ### More statements on the example data -/

/-- Witness of C11: the row starting exactly at `T` is `OPEN` at `T` and `CLOSED` later; over
the tied cursor the two races that are `OPEN` at `T` are `CLOSED` at `T + 2h`, and the two
that are `CLOSED` at `T` stay so. -/
theorem status_never_regresses_witness :
    Convertible startingNow.AdvertisedStart ∧ AllMaterialize tiedCursor ∧
      exampleNow ≤ exampleNow + 2 * hour ∧
      (∀ i : Nat, (fun _ => exampleNow) i ≤ (fun _ => exampleNow + 2 * hour) i) ∧
      Except.map (List.map Race.Status)
          (racesRepo.scanRaces tiedCursor (fun _ => exampleNow) true)
        = .ok ["CLOSED", "CLOSED", "OPEN", "OPEN"] ∧
      Except.map (List.map Race.Status)
          (racesRepo.scanRaces tiedCursor (fun _ => exampleNow + 2 * hour) true)
        = .ok ["CLOSED", "CLOSED", "CLOSED", "CLOSED"] ∧
      ∃ races1 races2,
        racesRepo.scanRaces tiedCursor (fun _ => exampleNow) true = .ok races1 ∧
        racesRepo.scanRaces tiedCursor (fun _ => exampleNow + 2 * hour) true = .ok races2 ∧
        List.Forall₂ (fun a b => a.row = b.row ∧ (a.Status = "CLOSED" → b.Status = "CLOSED"))
          races1 races2 :=
  ⟨by decide, (allMaterialize_map_ok tiedRows (by decide)).1, by decide, fun _ => (by decide : exampleNow ≤ exampleNow + 2 * hour),
    rfl, rfl,
    (status_never_regresses startingNow exampleNow (exampleNow + 2 * hour) tiedCursor
      (fun _ => exampleNow) (fun _ => exampleNow + 2 * hour) true (by decide)
      (allMaterialize_map_ok tiedRows (by decide)).1 (by decide) (fun _ => (by decide : exampleNow ≤ exampleNow + 2 * hour))).2.1⟩

/-- Witness of C15, the example of the specification: `Get(999)` on the store with ids
1, 2, 3 returns no race and no error; `Get(2)` returns race 2. -/
theorem Get_absent_or_the_row_witness :
    (∀ row ∈ exampleRepo.db.races, row.Id ≠ 999) ∧
      racesRepo.Get exampleRepo 999 exampleNow = .ok none ∧
      racesRepo.Get exampleRepo 2 exampleNow
        = .ok (some { Id := 2, MeetingId := 3, Name := "Race 2", Number := 2, Visible := false,
                      AdvertisedStartTime := { Seconds := 1700003600, Nanos := 0 },
                      Status := "OPEN" }) :=
  ⟨by decide, (Get_absent_or_the_row exampleRepo 999 exampleNow).1 (by decide), rfl⟩

/-- Witness of C16: the row dated 10000-01-01 makes `scanRaces` fail with the conversion
error after a row that materialized, and makes `scanRace` and `Get` return no race and no
error. -/
theorem conversion_failure_differs_between_paths_witness :
    ¬ Convertible (253402300800000000000 : Time) ∧
      AllMaterialize [.ok startingNow] ∧ Error.scan "converting" ≠ Error.ErrNoRows ∧
      racesRepo.Get farFutureRepo 1 exampleNow = .ok none ∧
      (racesRepo.scanRaces
          ([.ok startingNow] ++ .ok { startingNow with AdvertisedStart := 253402300800000000000 }
            :: [.ok startingNow]) (fun _ => exampleNow) true
        = .error (Error.timestamp ((253402300800000000000 : Time) / 1000000000)) ∧
      racesRepo.scanRace (.ok { startingNow with AdvertisedStart := 253402300800000000000 })
          exampleNow = .ok none ∧
      racesRepo.scanRace (.error Error.ErrNoRows) exampleNow = .ok none ∧
      racesRepo.scanRaces ([.ok startingNow] ++ .error (Error.scan "converting")
          :: [.ok startingNow]) (fun _ => exampleNow) true = .error (Error.scan "converting") ∧
      racesRepo.scanRace (.error (Error.scan "converting")) exampleNow
        = .error (Error.scan "converting")) :=
  ⟨by decide, (allMaterialize_map_ok [startingNow] (by decide)).1, by decide, rfl,
    conversion_failure_differs_between_paths
      { startingNow with AdvertisedStart := 253402300800000000000 } exampleNow
      [.ok startingNow] [.ok startingNow] (fun _ => exampleNow) true (Error.scan "converting")
      (by decide) (allMaterialize_map_ok [startingNow] (by decide)).1 (by decide)⟩

/-- Witness of C17: after one good row, a row that fails to scan ends the call with its
error; the good row is not returned and the row after the failing one does not matter. -/
theorem scanRaces_first_failure_witness :
    DeliveredByRowsScan [.ok startingNow, .error (Error.scan "converting"), .ok startingNow] ∧
      ¬ AllMaterialize [.ok startingNow, .error (Error.scan "converting"), .ok startingNow] ∧
      racesRepo.scanRaces [.ok startingNow, .error (Error.scan "converting"), .ok startingNow]
          (fun _ => exampleNow) true = .error (Error.scan "converting") ∧
      ∃ before failing after err,
        [.ok startingNow, .error (Error.scan "converting"), .ok startingNow]
          = before ++ failing :: after ∧ AllMaterialize before ∧
        (failing = .error err ∨
          ∃ scanned, failing = .ok scanned ∧
            TimestampProto scanned.AdvertisedStart = .error err) ∧
        racesRepo.scanRaces
            [.ok startingNow, .error (Error.scan "converting"), .ok startingNow]
            (fun _ => exampleNow) true = .error err ∧
        (∀ races, racesRepo.scanRaces
            [.ok startingNow, .error (Error.scan "converting"), .ok startingNow]
            (fun _ => exampleNow) true ≠ .ok races) ∧
        ∀ other : Rows,
          racesRepo.scanRaces (before ++ failing :: other) (fun _ => exampleNow) true
            = .error err :=
  have hscan : DeliveredByRowsScan
      [.ok startingNow, .error (Error.scan "converting"), .ok startingNow] := by
    intro row hrow
    simp only [List.mem_cons, List.mem_singleton, List.not_mem_nil, or_false] at hrow
    rcases hrow with rfl | rfl | rfl <;> intro h <;> cases h
  have hfail : ¬ AllMaterialize
      [.ok startingNow, .error (Error.scan "converting"), .ok startingNow] := by
    intro hall
    obtain ⟨scanned, h, -⟩ := hall (.error (Error.scan "converting")) (by simp)
    cases h
  ⟨hscan, hfail, rfl,
    scanRaces_first_failure
      [.ok startingNow, .error (Error.scan "converting"), .ok startingNow]
      (fun _ => exampleNow) true hscan hfail⟩

/-- Witness of C19 on the row starting at `T`, read at `T`. -/
theorem scanRace_agrees_with_scanRaces_witness :
    Convertible startingNow.AdvertisedStart ∧ (fun _ : Nat => exampleNow) 0 = exampleNow ∧
      ∃ race, racesRepo.scanRace (.ok startingNow) exampleNow = .ok (some race) ∧
        racesRepo.scanRaces [.ok startingNow] (fun _ => exampleNow) false = .ok [race] ∧
        race.row = startingNow :=
  ⟨by decide, rfl,
    scanRace_agrees_with_scanRaces startingNow exampleNow (fun _ => exampleNow) false
      (by decide) rfl⟩

/-- Witness of C20 on the three seeded rows, whose start times differ: ascending gives
3, 1, 2 and descending 2, 1, 3. -/
theorem descending_is_reverse_of_ascending_witness :
    AllMaterialize (exampleRows.map Except.ok) ∧
      (scannedRows (exampleRows.map Except.ok)).Pairwise
        (fun a b => a.AdvertisedStart ≠ b.AdvertisedStart) ∧
      Except.map (List.map Race.Id)
          (racesRepo.scanRaces (exampleRows.map Except.ok) (fun _ => exampleNow) true)
        = .ok [3, 1, 2] ∧
      Except.map (List.map Race.Id)
          (racesRepo.scanRaces (exampleRows.map Except.ok) (fun _ => exampleNow) false)
        = .ok [2, 1, 3] ∧
      ∃ up down,
        racesRepo.scanRaces (exampleRows.map Except.ok) (fun _ => exampleNow) true = .ok up ∧
        racesRepo.scanRaces (exampleRows.map Except.ok) (fun _ => exampleNow) false
          = .ok down ∧ down = up.reverse :=
  ⟨(allMaterialize_map_ok exampleRows (by decide)).1, by decide, rfl, rfl,
    (descending_is_reverse_of_ascending (exampleRows.map Except.ok) (fun _ => exampleNow)
      (allMaterialize_map_ok exampleRows (by decide)).1 (by decide)).1⟩

/-! ### Initialisation, call after call -/

theorem Init_fresh (db : DB) (seed : DB → DB × Option Error) :
    (NewRacesRepo db).Init seed
      = ({ db := (seed db).1, init := { done := true } }, (seed db).2) := rfl

theorem Init_done (r : racesRepo) (seed : DB → DB × Option Error) (h : r.init.done = true) :
    r.Init seed = (r, none) := by
  obtain ⟨db, ⟨done⟩⟩ := r
  simp only at h
  subst h
  rfl

theorem InitTimes_done (r : racesRepo) (seed : DB → DB × Option Error) (n : Nat)
    (h : r.init.done = true) :
    racesRepo.InitTimes seed n r = (r, List.replicate n none) := by
  induction n with
  | zero => rfl
  | succ n ih => simp [racesRepo.InitTimes, Init_done r seed h, ih, List.replicate_succ]

theorem InitTimes_fresh (db : DB) (seed : DB → DB × Option Error) (n : Nat) :
    racesRepo.InitTimes seed (n + 1) (NewRacesRepo db)
      = ({ db := (seed db).1, init := { done := true } },
          (seed db).2 :: List.replicate n none) := by
  simp [racesRepo.InitTimes, Init_fresh, InitTimes_done]

theorem events_Init_done (r : eventsRepo) (seed : EventsDB → EventsDB × Option Error)
    (h : r.init.done = true) : r.Init seed = (r, none) := by
  obtain ⟨db, ⟨done⟩⟩ := r
  simp only at h
  subst h
  rfl

theorem events_InitTimes_done (r : eventsRepo) (seed : EventsDB → EventsDB × Option Error)
    (n : Nat) (h : r.init.done = true) :
    eventsRepo.InitTimes seed n r = (r, List.replicate n none) := by
  induction n with
  | zero => rfl
  | succ n ih =>
    simp [eventsRepo.InitTimes, events_Init_done r seed h, ih, List.replicate_succ]

theorem events_InitTimes_fresh (db : EventsDB) (seed : EventsDB → EventsDB × Option Error)
    (n : Nat) :
    eventsRepo.InitTimes seed (n + 1) (NewEventsRepo db)
      = ({ db := (seed db).1, init := { done := true } },
          (seed db).2 :: List.replicate n none) := by
  have h : (NewEventsRepo db).Init seed
      = ({ db := (seed db).1, init := { done := true } }, (seed db).2) := rfl
  simp [eventsRepo.InitTimes, h, events_InitTimes_done]

/-- C12, amended: for every number of `Init` calls, one after the other, on a fresh
repository and every outcome of the seed action, the first call returns the seed's error
(or nil) and every later call returns nil; so all calls return the same outcome when the
seed succeeds. The same holds of the event repository. -/
theorem Init_first_call_returns_seed_outcome (db : DB) (seed : DB → DB × Option Error)
    (edb : EventsDB) (eseed : EventsDB → EventsDB × Option Error) (n : Nat) :
    (racesRepo.InitTimes seed (n + 1) (NewRacesRepo db)).2
        = (seed db).2 :: List.replicate n none ∧
      (eventsRepo.InitTimes eseed (n + 1) (NewEventsRepo edb)).2
        = (eseed edb).2 :: List.replicate n none ∧
      ((seed db).2 = none →
        ∀ err ∈ (racesRepo.InitTimes seed (n + 1) (NewRacesRepo db)).2, err = (seed db).2) := by
  rw [InitTimes_fresh, events_InitTimes_fresh]
  refine ⟨rfl, rfl, ?_⟩
  intro hnone err herr
  rw [hnone] at herr ⊢
  simp only [List.mem_cons, List.mem_replicate] at herr
  rcases herr with h | ⟨-, h⟩ <;> exact h

/-- C13: for every number `n + 1` of sequential `Init` calls on a fresh repository, the
seed action runs exactly once, in the first call, whether it succeeds or fails: the
repository after all the calls is the one after the first, its store is the seed applied
once to the initial store (a seed that inserts a row leaves exactly one copy of it), its
guard is set, and `Init` on a repository whose guard is set leaves it as it is. -/
theorem Init_runs_seed_exactly_once (db : DB) (seed : DB → DB × Option Error) (n : Nat)
    (row : RaceRow) (err : Option Error) :
    (racesRepo.InitTimes seed (n + 1) (NewRacesRepo db)).1
        = { db := (seed db).1, init := { done := true } } ∧
      (racesRepo.InitTimes seed 1 (NewRacesRepo db)).1
        = (racesRepo.InitTimes seed (n + 1) (NewRacesRepo db)).1 ∧
      (racesRepo.InitTimes (insertingSeed row err) (n + 1) (NewRacesRepo db)).1.db.races
        = db.races ++ [row] ∧
      (∀ r : racesRepo, r.init.done = true → r.Init seed = (r, none)) := by
  refine ⟨?_, ?_, ?_, fun r h => Init_done r seed h⟩
  · rw [InitTimes_fresh]
  · rw [InitTimes_fresh, InitTimes_fresh]
  · rw [InitTimes_fresh]
    rfl

/-- Witness of C12: a seed that succeeds, called three times. -/
theorem Init_first_call_returns_seed_outcome_witness :
    (insertingSeed startingNow none { races := [] }).2 = none ∧
      (racesRepo.InitTimes (insertingSeed startingNow none) 3 (NewRacesRepo { races := [] })).2
        = [none, none, none] ∧
      ∀ err ∈ (racesRepo.InitTimes (insertingSeed startingNow none) (2 + 1)
          (NewRacesRepo { races := [] })).2,
        err = (insertingSeed startingNow none { races := [] }).2 :=
  ⟨rfl, rfl,
    (Init_first_call_returns_seed_outcome { races := [] } (insertingSeed startingNow none)
      { events := [] } failingEventSeed 2).2.2 rfl⟩

/-- Counterexample to C12 as stated: the seed fails, the first of two calls returns its
error and the second returns nil, in both repositories. -/
theorem Init_second_call_loses_seed_error :
    (racesRepo.InitTimes failingSeed 2 (NewRacesRepo { races := [] })).2
        = [some seedFailure, none] ∧
      (eventsRepo.InitTimes failingEventSeed 2 (NewEventsRepo { events := [] })).2
        = [some seedFailure, none] ∧
      ¬ ∀ err ∈ (racesRepo.InitTimes failingSeed 2 (NewRacesRepo { races := [] })).2,
        err = (failingSeed { races := [] }).2 := by
  refine ⟨rfl, rfl, ?_⟩
  intro h
  have h2 := h none (by decide)
  cases h2

/-- Witness of C13: after a failed seed, three calls leave one seeded row, and a further
call on the repository returns nil without touching it. -/
theorem Init_runs_seed_exactly_once_witness :
    exampleRepo.init.done = true ∧
      (racesRepo.InitTimes failingSeed 3 (NewRacesRepo { races := [] })).1.db.races
        = [startingNow] ∧
      (racesRepo.InitTimes failingSeed 3 (NewRacesRepo { races := [] })).2
        = [some seedFailure, none, none] ∧
      exampleRepo.Init failingSeed = (exampleRepo, none) :=
  ⟨rfl, rfl, rfl,
    (Init_runs_seed_exactly_once { races := [] } failingSeed 2 startingNow none).2.2.2
      exampleRepo rfl⟩

/-! ### The event repository -/

theorem scanEventsFrom_ok (data : List EventRow)
    (h : ∀ row ∈ data, Convertible row.AdvertisedStart) (acc : List Event) :
    ∃ events, eventsRepo.scanEventsFrom (data.map Except.ok) acc = .ok (acc ++ events) ∧
      events.map Event.row = data := by
  induction data generalizing acc with
  | nil => exact ⟨[], by simp [eventsRepo.scanEventsFrom], rfl⟩
  | cons r rs ih =>
    have hr := TimestampProto_of_convertible (h r (List.mem_cons_self _ _))
    obtain ⟨events, h1, h2⟩ := ih (fun x hx => h x (List.mem_cons_of_mem _ hx))
      (acc ++ [{ Id := r.Id, Name := r.Name, AdvertisedStartTime := timestampOf r.AdvertisedStart }])
    refine ⟨{ Id := r.Id, Name := r.Name, AdvertisedStartTime := timestampOf r.AdvertisedStart }
      :: events, ?_, ?_⟩
    · simp only [List.map_cons, eventsRepo.scanEventsFrom, hr]
      rw [h1]
      simp
    · simp [Event.row, AsTime_timestampOf, h2]

/-- C18: when every event row scans and converts, `scanEvents`, and `List` of the event
repository over a store holding those rows, return one event per row, in the order of the
cursor, each with the id, name and start time of its row. -/
theorem eventsRepo_List_in_cursor_order (data : List EventRow) (once : Once)
    (h : ∀ row ∈ data, Convertible row.AdvertisedStart) :
    ∃ events, eventsRepo.scanEvents (data.map Except.ok) = .ok events ∧
      eventsRepo.List { db := { events := data }, init := once } = .ok events ∧
      events.map Event.row = data ∧ events.length = data.length := by
  obtain ⟨events, h1, h2⟩ := scanEventsFrom_ok data h []
  rw [List.nil_append] at h1
  refine ⟨events, h1, ?_, h2, ?_⟩
  · have hq : ({ events := data } : EventsDB).Query (getEventQueries eventsList) []
        = .ok (data.map Except.ok) := by
      simp [EventsDB.Query]
    simp only [eventsRepo.List, hq]
    exact h1
  · rw [← h2, List.length_map]

/-- Witness of C18: three events come back in store order 1, 2, 3, which is not the order
of their start times. -/
theorem eventsRepo_List_in_cursor_order_witness :
    (∀ row ∈ exampleEvents, Convertible row.AdvertisedStart) ∧
      eventsRepo.List { db := { events := exampleEvents }, init := { done := true } }
        = .ok [ { Id := 1, Name := "Event 1",
                  AdvertisedStartTime := { Seconds := 1700003600, Nanos := 0 } },
                { Id := 2, Name := "Event 2",
                  AdvertisedStartTime := { Seconds := 1699996400, Nanos := 0 } },
                { Id := 3, Name := "Event 3",
                  AdvertisedStartTime := { Seconds := 1700000000, Nanos := 0 } } ] ∧
      ∃ events, eventsRepo.scanEvents (exampleEvents.map Except.ok) = .ok events ∧
        eventsRepo.List { db := { events := exampleEvents }, init := { done := true } }
          = .ok events ∧
        events.map Event.row = exampleEvents ∧ events.length = exampleEvents.length :=
  ⟨by decide, rfl, eventsRepo_List_in_cursor_order exampleEvents { done := true } (by decide)⟩

/-! ### Concurrent initialisation -/

theorem getElem?_set_of_some {l : List Call} {i : Nat} {c : Call} (h : l[i]? = some c)
    (a : Call) (k : Nat) : (l.set i a)[k]? = if k = i then some a else l[k]? := by
  obtain ⟨hi, -⟩ := List.getElem?_eq_some_iff.mp h
  rw [List.getElem?_set]
  by_cases hk : i = k
  · subst hk
    simp [hi]
  · have hk' : ¬ k = i := fun e => hk e.symm
    simp [hk, hk']

/-- The five steps a call can take. -/
theorem step_cases {seed : DB → DB × Option Error} {w next : Shared} {i : Nat}
    (h : w.step seed i = some next) :
    (w.calls[i]? = some Call.start ∧ w.done = true ∧
        next = { w with calls := w.calls.set i (Call.returned none) }) ∨
      (w.calls[i]? = some Call.start ∧ w.done = false ∧
        next = { w with calls := w.calls.set i Call.waiting }) ∨
      (w.calls[i]? = some Call.waiting ∧ w.locked = false ∧ w.done = true ∧
        next = { w with calls := w.calls.set i (Call.returned none) }) ∨
      (w.calls[i]? = some Call.waiting ∧ w.locked = false ∧ w.done = false ∧
        next = { w with locked := true, calls := w.calls.set i Call.seeding }) ∨
      (w.calls[i]? = some Call.seeding ∧
        next = { db := (seed w.db).1, done := true, locked := false,
                 seedRuns := w.seedRuns + 1,
                 calls := w.calls.set i (Call.returned (seed w.db).2) }) := by
  unfold Shared.step at h
  split at h
  · cases h
  · rename_i hc
    by_cases hd : w.done = true
    · rw [if_pos hd] at h
      exact Or.inl ⟨hc, hd, (Option.some.inj h).symm⟩
    · rw [if_neg hd] at h
      exact Or.inr (Or.inl ⟨hc, by simpa using hd, (Option.some.inj h).symm⟩)
  · rename_i hc
    by_cases hl : w.locked = true
    · rw [if_pos hl] at h
      cases h
    · rw [if_neg hl] at h
      by_cases hd : w.done = true
      · rw [if_pos hd] at h
        exact Or.inr (Or.inr (Or.inl ⟨hc, by simpa using hl, hd, (Option.some.inj h).symm⟩))
      · rw [if_neg hd] at h
        exact Or.inr (Or.inr (Or.inr (Or.inl
          ⟨hc, by simpa using hl, by simpa using hd, (Option.some.inj h).symm⟩)))
  · rename_i hc
    exact Or.inr (Or.inr (Or.inr (Or.inr ⟨hc, (Option.some.inj h).symm⟩)))
  · cases h

theorem invariant_begin (seed : DB → DB × Option Error) (db0 : DB) (n : Nat) :
    Shared.Invariant seed db0 n (Shared.begin db0 n) := by
  refine ⟨by simp [Shared.begin], Or.inl ⟨rfl, rfl, rfl, ?_, ?_, ?_⟩⟩
  · intro k c hc
    simp only [Shared.begin, List.getElem?_replicate] at hc
    split at hc
    · exact Or.inl (Option.some.inj hc).symm
    · cases hc
  · intro _ k hk
    simp only [Shared.begin, List.getElem?_replicate] at hk
    split at hk
    · cases hk
    · cases hk
  · intro h
    cases h

theorem invariant_step {seed : DB → DB × Option Error} {db0 : DB} {n : Nat}
    {w next : Shared} {i : Nat} (hinv : Shared.Invariant seed db0 n w)
    (h : w.step seed i = some next) : Shared.Invariant seed db0 n next := by
  obtain ⟨hlen, hinv⟩ := hinv
  rcases step_cases h with ⟨hc, hd, rfl⟩ | ⟨hc, hd, rfl⟩ | ⟨hc, hl, hd, rfl⟩ |
    ⟨hc, hl, hd, rfl⟩ | ⟨hc, rfl⟩
  · -- start, done: returns nil
    refine ⟨by simpa using hlen, ?_⟩
    rcases hinv with ⟨hd', -⟩ | ⟨-, hl, hruns, hdb, j, hj, hothers⟩
    · rw [hd] at hd'
      cases hd'
    · refine Or.inr ⟨hd, hl, hruns, hdb, j, ?_, ?_⟩
      · have hji : j ≠ i := by
          rintro rfl
          rw [hc] at hj
          cases hj
        simp only [getElem?_set_of_some hc, if_neg hji]
        exact hj
      · intro k hk c hkc
        simp only [getElem?_set_of_some hc] at hkc
        split at hkc
        · exact Or.inr (Or.inr (Option.some.inj hkc).symm)
        · exact hothers k hk c hkc
  · -- start, not done: waits
    refine ⟨by simpa using hlen, ?_⟩
    rcases hinv with ⟨-, hruns, hdb, hall, hfree, hheld⟩ | ⟨hd', -⟩
    · refine Or.inl ⟨hd, hruns, hdb, ?_, ?_, ?_⟩
      · intro k c hkc
        simp only [getElem?_set_of_some hc] at hkc
        split at hkc
        · exact Or.inr (Or.inl (Option.some.inj hkc).symm)
        · exact hall k c hkc
      · intro hl k hk
        simp only [getElem?_set_of_some hc] at hk
        split at hk
        · cases hk
        · exact hfree hl k hk
      · intro hl
        obtain ⟨j, hj, huniq⟩ := hheld hl
        have hji : j ≠ i := by
          rintro rfl
          rw [hc] at hj
          cases hj
        refine ⟨j, ?_, ?_⟩
        · simp only [getElem?_set_of_some hc, if_neg hji]
          exact hj
        · intro k hk hks
          simp only [getElem?_set_of_some hc] at hks
          split at hks
          · cases hks
          · exact huniq k hk hks
    · rw [hd] at hd'
      cases hd'
  · -- waiting, mutex free, done: returns nil
    refine ⟨by simpa using hlen, ?_⟩
    rcases hinv with ⟨hd', -⟩ | ⟨-, hl', hruns, hdb, j, hj, hothers⟩
    · rw [hd] at hd'
      cases hd'
    · refine Or.inr ⟨hd, hl', hruns, hdb, j, ?_, ?_⟩
      · have hji : j ≠ i := by
          rintro rfl
          rw [hc] at hj
          cases hj
        simp only [getElem?_set_of_some hc, if_neg hji]
        exact hj
      · intro k hk c hkc
        simp only [getElem?_set_of_some hc] at hkc
        split at hkc
        · exact Or.inr (Or.inr (Option.some.inj hkc).symm)
        · exact hothers k hk c hkc
  · -- waiting, mutex free, not done: takes the mutex and seeds
    refine ⟨by simpa using hlen, ?_⟩
    rcases hinv with ⟨-, hruns, hdb, hall, hfree, -⟩ | ⟨hd', -⟩
    · refine Or.inl ⟨hd, hruns, hdb, ?_, ?_, ?_⟩
      · intro k c hkc
        simp only [getElem?_set_of_some hc] at hkc
        split at hkc
        · exact Or.inr (Or.inr (Option.some.inj hkc).symm)
        · exact hall k c hkc
      · intro hl'
        cases hl'
      · intro _
        refine ⟨i, ?_, ?_⟩
        · simp [getElem?_set_of_some hc]
        · intro k hk hks
          simp only [getElem?_set_of_some hc, if_neg hk] at hks
          exact hfree hl k hks
    · rw [hd] at hd'
      cases hd'
  · -- seeding: the seed completes
    refine ⟨by simpa using hlen, ?_⟩
    rcases hinv with ⟨-, hruns, hdb, hall, hfree, hheld⟩ | ⟨-, -, -, -, j, hj, hothers⟩
    · have hl : w.locked = true := by
        by_contra hl
        exact hfree (by simpa using hl) i hc
      obtain ⟨j, hj, huniq⟩ := hheld hl
      refine Or.inr ⟨rfl, rfl, by simp [hruns], by simp [hdb], i, ?_, ?_⟩
      · simp [getElem?_set_of_some hc, hdb]
      · intro k hk c hkc
        simp only [getElem?_set_of_some hc, if_neg hk] at hkc
        have hkj : k ≠ j := by
          rintro rfl
          by_cases hij : i = k
          · exact hk hij.symm
          · exact huniq i hij hc
        rcases hall k c hkc with rfl | rfl | rfl
        · exact Or.inl rfl
        · exact Or.inr (Or.inl rfl)
        · exact absurd hkc (huniq k hkj)
    · exfalso
      by_cases hij : i = j
      · subst hij
        rw [hc] at hj
        cases hj
      · rcases hothers i hij _ hc with h | h | h <;> cases h

theorem invariant_run {seed : DB → DB × Option Error} {db0 : DB} {n : Nat}
    (schedule : List Nat) {w last : Shared} (hinv : Shared.Invariant seed db0 n w)
    (h : Shared.run seed w schedule = some last) : Shared.Invariant seed db0 n last := by
  induction schedule generalizing w with
  | nil =>
    simp only [Shared.run, Option.some.injEq] at h
    exact h ▸ hinv
  | cons i rest ih =>
    simp only [Shared.run] at h
    split at h
    · cases h
    · rename_i next hstep
      exact ih (invariant_step hinv hstep) h

theorem sum_remaining_set {l : List Call} {i : Nat} {c : Call} (h : l[i]? = some c)
    (a : Call) :
    ((l.set i a).map Call.remaining).sum + c.remaining
      = (l.map Call.remaining).sum + a.remaining := by
  induction l generalizing i with
  | nil => simp at h
  | cons x l ih =>
    cases i with
    | zero =>
      simp only [List.getElem?_cons_zero, Option.some.injEq] at h
      subst h
      simp only [List.set_cons_zero, List.map_cons, List.sum_cons]
      omega
    | succ i =>
      simp only [List.getElem?_cons_succ] at h
      have := ih h
      simp only [List.set_cons_succ, List.map_cons, List.sum_cons]
      omega

theorem remaining_step {seed : DB → DB × Option Error} {w next : Shared} {i : Nat}
    (h : w.step seed i = some next) : next.remaining < w.remaining := by
  rcases step_cases h with ⟨hc, -, rfl⟩ | ⟨hc, -, rfl⟩ | ⟨hc, -, -, rfl⟩ |
    ⟨hc, -, -, rfl⟩ | ⟨hc, rfl⟩ <;>
  · have hsum := sum_remaining_set hc
    simp only [Shared.remaining]
    first
      | (have h1 := hsum (Call.returned none); simp only [Call.remaining] at h1; omega)
      | (have h1 := hsum Call.waiting; simp only [Call.remaining] at h1; omega)
      | (have h1 := hsum Call.seeding; simp only [Call.remaining] at h1; omega)
      | (have h1 := hsum (Call.returned (seed w.db).2); simp only [Call.remaining] at h1
         omega)

theorem remaining_begin (db0 : DB) (n : Nat) : (Shared.begin db0 n).remaining = 3 * n := by
  simp only [Shared.remaining, Shared.begin]
  induction n with
  | zero => rfl
  | succ n ih =>
    simp only [List.replicate_succ, List.map_cons, List.sum_cons, ih, Call.remaining]
    omega

theorem remaining_run {seed : DB → DB × Option Error} (schedule : List Nat)
    {w last : Shared} (h : Shared.run seed w schedule = some last) :
    schedule.length + last.remaining ≤ w.remaining := by
  induction schedule generalizing w with
  | nil =>
    simp only [Shared.run, Option.some.injEq] at h
    subst h
    simp
  | cons i rest ih =>
    simp only [Shared.run] at h
    split at h
    · cases h
    · rename_i next hstep
      have h1 := ih h
      have h2 := remaining_step hstep
      simp only [List.length_cons]
      omega

theorem progress {seed : DB → DB × Option Error} {db0 : DB} {n : Nat} {w : Shared}
    (hinv : Shared.Invariant seed db0 n w) (hfin : w.finished = false) :
    ∃ i next, w.step seed i = some next := by
  have hex : ∃ (k : Nat) (c : Call), w.calls[k]? = some c ∧ c.isReturned = false := by
    by_contra hno
    have hall : w.finished = true := by
      simp only [Shared.finished, List.all_eq_true]
      intro c hc
      obtain ⟨k, hk⟩ := List.mem_iff_getElem?.mp hc
      by_contra hret
      exact hno ⟨k, c, hk, by simpa using hret⟩
    rw [hall] at hfin
    cases hfin
  obtain ⟨k, c, hk, hc⟩ := hex
  have hstart : ∀ i : Nat, w.calls[i]? = some Call.start →
      ∃ i next, w.step seed i = some next := by
    intro i hi
    refine ⟨i, Option.isSome_iff_exists.mp ?_⟩
    by_cases hd : w.done = true <;> simp [Shared.step, hi, hd]
  have hseeding : ∀ i : Nat, w.calls[i]? = some Call.seeding →
      ∃ i next, w.step seed i = some next := by
    intro i hi
    exact ⟨i, Option.isSome_iff_exists.mp (by simp [Shared.step, hi])⟩
  cases c with
  | start => exact hstart k hk
  | seeding => exact hseeding k hk
  | returned err => cases hc
  | waiting =>
    by_cases hl : w.locked = true
    · rcases hinv.2 with ⟨-, -, -, -, -, hheld⟩ | ⟨-, hfree, -⟩
      · obtain ⟨j, hj, -⟩ := hheld hl
        exact hseeding j hj
      · rw [hl] at hfree
        cases hfree
    · refine ⟨k, Option.isSome_iff_exists.mp ?_⟩
      by_cases hd : w.done = true <;> simp [Shared.step, hk, hl, hd]

theorem completion {seed : DB → DB × Option Error} {db0 : DB} {n : Nat} (m : Nat) :
    ∀ w : Shared, Shared.Invariant seed db0 n w → w.remaining ≤ m →
      ∃ more last, Shared.run seed w more = some last ∧ last.finished = true := by
  induction m with
  | zero =>
    intro w hinv hm
    by_cases hfin : w.finished = true
    · exact ⟨[], w, rfl, hfin⟩
    · obtain ⟨i, next, hstep⟩ := progress hinv (by simpa using hfin)
      have := remaining_step hstep
      omega
  | succ m ih =>
    intro w hinv hm
    by_cases hfin : w.finished = true
    · exact ⟨[], w, rfl, hfin⟩
    · obtain ⟨i, next, hstep⟩ := progress hinv (by simpa using hfin)
      have hlt := remaining_step hstep
      obtain ⟨more, last, hrun, hlast⟩ := ih next (invariant_step hinv hstep) (by omega)
      exact ⟨i :: more, last, by simp only [Shared.run, hstep, hrun], hlast⟩

theorem finished_outcomes {seed : DB → DB × Option Error} {db0 : DB} {n : Nat} {w : Shared}
    (hinv : Shared.Invariant seed db0 n w) (hn : 1 ≤ n) (hfin : w.finished = true) :
    w.seedRuns = 1 ∧ w.db = (seed db0).1 ∧
      ∃ j : Nat, j < n ∧ w.calls[j]? = some (Call.returned (seed db0).2) ∧
        ∀ k : Nat, k < n → k ≠ j → w.calls[k]? = some (Call.returned none) := by
  obtain ⟨hlen, hinv⟩ := hinv
  simp only [Shared.finished, List.all_eq_true] at hfin
  rcases hinv with ⟨-, -, -, hall, -, -⟩ | ⟨-, -, hruns, hdb, j, hj, hothers⟩
  · exfalso
    have h0 : 0 < w.calls.length := by omega
    have hget : w.calls[0]? = some (w.calls[0]) := List.getElem?_eq_getElem h0
    have hret := hfin _ (List.getElem_mem h0)
    rcases hall 0 _ hget with h | h | h <;> rw [h] at hret <;> cases hret
  · refine ⟨hruns, hdb, j, ?_, hj, ?_⟩
    · obtain ⟨hjlt, -⟩ := List.getElem?_eq_some_iff.mp hj
      omega
    · intro k hk hkj
      have hklt : k < w.calls.length := by omega
      have hget : w.calls[k]? = some (w.calls[k]) := List.getElem?_eq_getElem hklt
      have hret := hfin _ (List.getElem_mem hklt)
      rcases hothers k hkj _ hget with h | h | h
      · rw [h] at hret
        cases hret
      · rw [h] at hret
        cases hret
      · rw [hget, h]

theorem seedRuns_le_one {seed : DB → DB × Option Error} {db0 : DB} {n : Nat} {w : Shared}
    (hinv : Shared.Invariant seed db0 n w) : w.seedRuns ≤ 1 := by
  rcases hinv.2 with ⟨-, h, -⟩ | ⟨-, -, h, -⟩ <;> omega

/-- C14, amended: when `Init` is called `n ≥ 2` times concurrently on a fresh repository,
at every moment of every interleaving the seed action has run at most once; when all calls
have returned it has run exactly once, on the initial store, one call has returned the
seed's outcome and each of the other `n - 1` calls has returned nil, so the outcomes are
identical exactly when the seed succeeds. No interleaving blocks: unless all calls have
returned some call can step, every step uses up the bound `remaining`, an interleaving has
at most `3 n` steps, and it can always be run on until all calls have returned. -/
theorem Init_concurrent_calls (seed : DB → DB × Option Error) (db : DB) (n : Nat)
    (schedule : List Nat) (w : Shared) (hn : 2 ≤ n)
    (hrun : Shared.run seed (Shared.begin db n) schedule = some w) :
    w.seedRuns ≤ 1 ∧
      (w.finished = true →
        w.seedRuns = 1 ∧ w.db = (seed db).1 ∧
          ∃ j : Nat, j < n ∧ w.calls[j]? = some (Call.returned (seed db).2) ∧
            ∀ k : Nat, k < n → k ≠ j → w.calls[k]? = some (Call.returned none)) ∧
      (w.finished = false → ∃ i next, w.step seed i = some next) ∧
      (∀ i next, w.step seed i = some next → next.remaining < w.remaining) ∧
      schedule.length + w.remaining ≤ 3 * n ∧
      (∃ more last, Shared.run seed w more = some last ∧ last.finished = true) := by
  have hinv : Shared.Invariant seed db n w := invariant_run schedule (invariant_begin seed db n) hrun
  refine ⟨seedRuns_le_one hinv, finished_outcomes hinv (by omega), progress hinv,
    fun i next h => remaining_step h, ?_, completion w.remaining w hinv (le_refl _)⟩
  have h := remaining_run schedule hrun
  rw [remaining_begin] at h
  exact h

/-- Witness of C14: two calls, the seed fails; call 0 and call 1 both enter `Do`, call 0
seeds and returns the error, call 1 then returns nil. -/
theorem Init_concurrent_calls_witness :
    2 ≤ 2 ∧
      Shared.run failingSeed (Shared.begin { races := [] } 2) [0, 1, 0, 0, 1]
        = some { db := { races := [startingNow] }, done := true, locked := false,
                 seedRuns := 1,
                 calls := [Call.returned (some seedFailure), Call.returned none] } ∧
      (1 = 1 ∧ ({ races := [startingNow] } : DB) = (failingSeed { races := [] }).1 ∧
        ∃ j : Nat, j < 2 ∧
          [Call.returned (some seedFailure), Call.returned none][j]?
            = some (Call.returned (failingSeed { races := [] }).2) ∧
          ∀ k : Nat, k < 2 → k ≠ j →
            [Call.returned (some seedFailure), Call.returned none][k]?
              = some (Call.returned none)) :=
  ⟨by decide, rfl,
    (Init_concurrent_calls failingSeed { races := [] } 2 [0, 1, 0, 0, 1]
      { db := { races := [startingNow] }, done := true, locked := false, seedRuns := 1,
        calls := [Call.returned (some seedFailure), Call.returned none] }
      (by decide) rfl).2.1 rfl⟩

/-- Counterexample to C14 as stated: two concurrent calls and a failing seed. In the
interleaving where both calls enter `Do` before call 0 seeds, the seed runs once, call 0
returns the error and call 1 returns nil: the two outcomes are not identical. -/
theorem Init_concurrent_outcomes_differ :
    Option.map Shared.calls
        (Shared.run failingSeed (Shared.begin { races := [] } 2) [0, 1, 0, 0, 1])
        = some [Call.returned (some seedFailure), Call.returned none] ∧
      Option.map Shared.seedRuns
        (Shared.run failingSeed (Shared.begin { races := [] } 2) [0, 1, 0, 0, 1]) = some 1 ∧
      Call.returned (some seedFailure) ≠ Call.returned none :=
  ⟨rfl, rfl, by decide⟩

end Racing
